import Mathlib

/-!
# Verification of the indexed max-heap in `pokersim.py`

This file is a shallow embedding of the core data structure of the
repository (`PokerGameEngine` in `src/pokersim.py`): a max-heap stored in a
dense array (`heap`) together with a reverse lookup table
(`position_map : player_id → slot index`).  Python lists become Lean `List`s,
the Python dict becomes a function `Nat → Option Nat` (a `del` is a point
update to `none`, a missing key is `none`), integer scores become `Int`,
and the two `while`/recursive sift loops become fuel-indexed structural
recursions (`siftUpGo`, `siftDownGo`) whose fuel provably suffices, wrapped
as `_sift_up` / `_sift_down` with exactly the fuel each loop can consume.
The driver code (`simulate_game`) is out of scope, as are the `print`
statements (pure I/O) and the unused `cards` field of `Player`.
-/

set_option maxHeartbeats 1000000

namespace PokerSim

/-- The `Player` record of `pokersim.py` (the unused `cards` list is omitted;
`hand_score` starts at 0 in Python but is always set by the caller). -/
structure Player where
  player_id : Nat
  name : String
  hand_score : Int
deriving DecidableEq

/-- Default element used to give total meaning to out-of-range list reads;
every read performed by the operations below is in range on the states they
are actually run on. -/
def dflt : Player := ⟨0, "", 0⟩

/-- The `PokerGameEngine` state: the array-encoded binary tree `heap` and the
lookup table `position_map` (Python dict, modelled as a total function into
`Option Nat`). -/
structure PokerGameEngine where
  heap : List Player
  position_map : Nat → Option Nat

/-- `PokerGameEngine.__init__`: empty heap, empty map. -/
def PokerGameEngine.init : PokerGameEngine := ⟨[], fun _ => none⟩

/-- `_parent(i) = (i - 1) // 2` (on the `Nat` indices used by the array). -/
def _parent (i : Nat) : Nat := (i - 1) / 2

/-- `_left(i) = 2*i + 1`. -/
def _left (i : Nat) : Nat := 2 * i + 1

/-- `_right(i) = 2*i + 2`. -/
def _right (i : Nat) : Nat := 2 * i + 2

/-- The element stored at slot `i` (out-of-range reads give `dflt`). -/
def elemAt (e : PokerGameEngine) (i : Nat) : Player := e.heap.getD i dflt

/-- `self.heap[i].hand_score`. -/
def hscore (e : PokerGameEngine) (i : Nat) : Int := (elemAt e i).hand_score

/-- `self.heap[i].player_id`. -/
def pidAt (e : PokerGameEngine) (i : Nat) : Nat := (elemAt e i).player_id

/-- `_swap(i, j)`: exchange slots `i` and `j` of the array, then write
`position_map[heap[i].player_id] = i` followed by
`position_map[heap[j].player_id] = j` (the second write wins, exactly as the
two successive dict assignments in Python do). -/
def _swap (e : PokerGameEngine) (i j : Nat) : PokerGameEngine :=
  let a := e.heap.getD i dflt
  let b := e.heap.getD j dflt
  { heap := (e.heap.set i b).set j a
    position_map := fun k =>
      if k = a.player_id then some j
      else if k = b.player_id then some i
      else e.position_map k }

/-- The body of `_sift_up`'s `while` loop, with explicit fuel.  One step
swaps `i` with `_parent i` while `i > 0` and the score at `i` exceeds the
parent's. -/
def siftUpGo : Nat → PokerGameEngine → Nat → PokerGameEngine
  | 0, e, _ => e
  | fuel + 1, e, i =>
    if 0 < i ∧ hscore e i > hscore e (_parent i) then
      siftUpGo fuel (_swap e i (_parent i)) (_parent i)
    else e

/-- `_sift_up(i)`: the loop strictly decreases `i`, so `i + 1` units of fuel
always suffice (`siftUpGo_fuel` below proves fuel-irrelevance). -/
def _sift_up (e : PokerGameEngine) (i : Nat) : PokerGameEngine :=
  siftUpGo (i + 1) e i

/-- The index `max_idx` computed by `_sift_down`: the larger of slot `i` and
its in-range children, preferring `i`, then the left child, on ties. -/
def siftTarget (e : PokerGameEngine) (i : Nat) : Nat :=
  let size := e.heap.length
  let m1 := if _left i < size ∧ hscore e (_left i) > hscore e i then _left i else i
  if _right i < size ∧ hscore e (_right i) > hscore e m1 then _right i else m1

/-- The recursion of `_sift_down`, with explicit fuel.  One step swaps `i`
with `siftTarget e i` and recurses there when they differ. -/
def siftDownGo : Nat → PokerGameEngine → Nat → PokerGameEngine
  | 0, e, _ => e
  | fuel + 1, e, i =>
    let m := siftTarget e i
    if m ≠ i then siftDownGo fuel (_swap e i m) m else e

/-- `_sift_down(i)`: each recursive call strictly increases `i` while staying
below the array length, so `heap.length` units of fuel always suffice
(`siftDownGo_fuel` below proves fuel-irrelevance). -/
def _sift_down (e : PokerGameEngine) (i : Nat) : PokerGameEngine :=
  siftDownGo e.heap.length e i

/-- `add_player(player)`: append, record the index in the map, sift up. -/
def add_player (e : PokerGameEngine) (p : Player) : PokerGameEngine :=
  let h := e.heap ++ [p]
  let index := h.length - 1
  _sift_up
    { heap := h
      position_map := fun k => if k = p.player_id then some index else e.position_map k }
    index

/-- `get_winner()`: `self.heap[0] if self.heap else None`; no mutation. -/
def get_winner (e : PokerGameEngine) : Option Player := e.heap.head?

/-- `fold_player(player_id)`: silently return if the id is unknown; otherwise
swap the target with the last slot, pop it, delete the id from the map, and
if the freed slot still lies inside the shrunken array, sift up then down. -/
def fold_player (e : PokerGameEngine) (player_id : Nat) : PokerGameEngine :=
  match e.position_map player_id with
  | none => e
  | some index =>
    let last_idx := e.heap.length - 1
    let e1 := _swap e index last_idx
    let e2 : PokerGameEngine :=
      { heap := e1.heap.dropLast
        position_map := fun k => if k = player_id then none else e1.position_map k }
    if index < e2.heap.length then _sift_down (_sift_up e2 index) index else e2

/-- `update_hand_strength(player_id, new_score)`: silently return if the id
is unknown; otherwise overwrite the score in place and sift up when it
strictly increased, down otherwise. -/
def update_hand_strength (e : PokerGameEngine) (player_id : Nat) (new_score : Int) :
    PokerGameEngine :=
  match e.position_map player_id with
  | none => e
  | some index =>
    let old_score := hscore e index
    let e1 : PokerGameEngine :=
      { heap := e.heap.set index { elemAt e index with hand_score := new_score }
        position_map := e.position_map }
    if new_score > old_score then _sift_up e1 index else _sift_down e1 index

/-- Modelled from the spec: the alternative `updatePriority` strategy that,
after overwriting the priority in place, unconditionally runs sift-up and
then sift-down ("an implementation MAY instead run sift-up then sift-down
unconditionally for simplicity").  Compared against
`update_hand_strength` for the refinement claim. -/
def update_hand_strength_alt (e : PokerGameEngine) (player_id : Nat) (new_score : Int) :
    PokerGameEngine :=
  match e.position_map player_id with
  | none => e
  | some index =>
    let e1 : PokerGameEngine :=
      { heap := e.heap.set index { elemAt e index with hand_score := new_score }
        position_map := e.position_map }
    _sift_down (_sift_up e1 index) index

/-- One public operation of the engine. -/
inductive Op where
  | add (p : Player)
  | fold (player_id : Nat)
  | update (player_id : Nat) (new_score : Int)
  | peek
deriving DecidableEq

/-- Run one public operation (`peek` = `get_winner`, which does not mutate). -/
def applyOp (e : PokerGameEngine) : Op → PokerGameEngine
  | Op.add p => add_player e p
  | Op.fold pid => fold_player e pid
  | Op.update pid s => update_hand_strength e pid s
  | Op.peek => e

/-- Run a sequence of public operations from the empty structure. -/
def runOps (ops : List Op) : PokerGameEngine :=
  ops.foldl applyOp PokerGameEngine.init

/-- `true` iff every `add` in the sequence (run from `e`) uses an id that is
absent at the moment of the call — i.e. the spec's `DuplicateKey`
precondition of `insert` is respected throughout. -/
def freshAdds : PokerGameEngine → List Op → Bool
  | _, [] => true
  | e, op :: rest =>
    (match op with
     | Op.add p => (e.position_map p.player_id).isNone
     | _ => true) && freshAdds (applyOp e op) rest

/-- The extraction protocol of the round-trip property: repeatedly read the
current max's id via `get_winner` and `fold_player` it, collecting the
elements read, for at most `fuel` rounds. -/
def extractLoop : Nat → PokerGameEngine → List Player
  | 0, _ => []
  | fuel + 1, e =>
    match get_winner e with
    | none => []
    | some w => w :: extractLoop fuel (fold_player e w.player_id)

/-! ## Invariants -/

/-- The heap invariant: every non-root slot's score is at most its parent's. -/
def heapInv (e : PokerGameEngine) : Prop :=
  ∀ i, 0 < i → i < e.heap.length → hscore e (_parent i) ≥ hscore e i

/-- Soundness of the lookup table: every entry points in range, at an element
carrying exactly that id.  (This holds across *all* reachable states, even
those produced by duplicate-id `add_player` calls.) -/
def mapSound (e : PokerGameEngine) : Prop :=
  ∀ k j, e.position_map k = some j → j < e.heap.length ∧ pidAt e j = k

/-- Completeness of the lookup table: every occupied slot is indexed under
its element's id.  Together with `mapSound` this is the bijection invariant. -/
def mapComplete (e : PokerGameEngine) : Prop :=
  ∀ i, i < e.heap.length → e.position_map (pidAt e i) = some i

/-- Precondition under which `_sift_up i` restores the heap invariant: the
invariant holds at every edge except possibly `(parent i, i)`, and the
children of `i` (if any) are already dominated by `i`'s parent. -/
def siftUpInv (e : PokerGameEngine) (i : Nat) : Prop :=
  (∀ j, 0 < j → j < e.heap.length → j ≠ i → hscore e (_parent j) ≥ hscore e j) ∧
  (0 < i → ∀ c, c < e.heap.length → _parent c = i → hscore e (_parent i) ≥ hscore e c)

/-- Precondition under which `_sift_down i` restores the heap invariant: the
invariant holds at every edge except possibly the ones from `i` to its
children, and those children are already dominated by `i`'s parent. -/
def siftDownInv (e : PokerGameEngine) (i : Nat) : Prop :=
  (∀ j, 0 < j → j < e.heap.length → _parent j ≠ i → hscore e (_parent j) ≥ hscore e j) ∧
  (0 < i → ∀ c, c < e.heap.length → _parent c = i → hscore e (_parent i) ≥ hscore e c)

/-- The invariant maintained by every operation from the empty structure. -/
def WF (e : PokerGameEngine) : Prop := heapInv e ∧ mapSound e

/-- The full bijection invariant (needs the `DuplicateKey` precondition). -/
def WFB (e : PokerGameEngine) : Prop := heapInv e ∧ mapSound e ∧ mapComplete e

/-! ## List helper lemmas -/

theorem getD_set_self {α : Type} (l : List α) {i : Nat} (a d : α) (h : i < l.length) :
    (l.set i a).getD i d = a := by
  simp [List.getD_eq_getElem?_getD, List.getElem?_set_self h]

theorem getD_set_ne {α : Type} (l : List α) {i j : Nat} (a d : α) (h : i ≠ j) :
    (l.set i a).getD j d = l.getD j d := by
  simp [List.getD_eq_getElem?_getD, List.getElem?_set_ne h]

theorem getD_append_left {α : Type} (l l' : List α) {j : Nat} (d : α) (h : j < l.length) :
    (l ++ l').getD j d = l.getD j d := by
  simp [List.getD_eq_getElem?_getD, List.getElem?_append, h]

theorem getD_append_last {α : Type} (l : List α) (a d : α) :
    (l ++ [a]).getD l.length d = a := by
  simp [List.getD_eq_getElem?_getD, List.getElem?_append_right (Nat.le_refl _)]

theorem getD_dropLast {α : Type} (l : List α) {j : Nat} (d : α) (h : j < l.length - 1) :
    l.dropLast.getD j d = l.getD j d := by
  rw [List.getD_eq_getElem?_getD, List.getD_eq_getElem?_getD, List.getElem?_dropLast, if_pos h]

theorem dropLast_append_getD {α : Type} (l : List α) (d : α) (h : l ≠ []) :
    l.dropLast ++ [l.getD (l.length - 1) d] = l := by
  have hl : 0 < l.length := List.length_pos.mpr h
  have h2 : l.getD (l.length - 1) d = l.getLast h := by
    rw [List.getLast_eq_getElem, List.getD_eq_getElem l d (by omega)]
  rw [h2, List.dropLast_append_getLast]

theorem set_getD_self {α : Type} (l : List α) {i : Nat} (d : α) (h : i < l.length) :
    l.set i (l.getD i d) = l := by
  apply List.ext_getElem?
  intro n
  rw [List.getElem?_set]
  by_cases hn : i = n
  · subst hn
    rw [if_pos rfl, if_pos h, List.getD_eq_getElem l d h, List.getElem?_eq_getElem h]
  · rw [if_neg hn]

theorem cons_set_perm {α : Type} :
    ∀ (l : List α) (m : Nat) (x d : α), m < l.length →
      (l.getD m d :: l.set m x).Perm (x :: l) := by
  intro l
  induction l with
  | nil => intro m x d h; simp at h
  | cons y ys ih =>
    intro m x d h
    cases m with
    | zero => exact List.Perm.swap x y ys
    | succ m =>
      have hm : m < ys.length := by simpa using Nat.lt_of_succ_lt_succ h
      have s1 : (ys.getD m d :: y :: ys.set m x).Perm (y :: ys.getD m d :: ys.set m x) :=
        List.Perm.swap y (ys.getD m d) (ys.set m x)
      have s2 : (y :: ys.getD m d :: ys.set m x).Perm (y :: x :: ys) :=
        (ih m x d hm).cons y
      have s3 : (y :: x :: ys).Perm (x :: y :: ys) := List.Perm.swap x y ys
      exact s1.trans (s2.trans s3)

theorem set_set_perm {α : Type} (l : List α) (i j : Nat) (d : α)
    (hi : i < l.length) (hj : j < l.length) :
    ((l.set i (l.getD j d)).set j (l.getD i d)).Perm l := by
  by_cases hij : i = j
  · subst hij
    rw [List.set_set, set_getD_self l d hi]
  · have hj' : j < (l.set i (l.getD j d)).length := by simpa using hj
    have h1 := cons_set_perm (l.set i (l.getD j d)) j (l.getD i d) d hj'
    rw [getD_set_ne l (l.getD j d) d hij] at h1
    have h2 := cons_set_perm l i (l.getD j d) d hi
    exact (h1.trans h2).cons_inv

/-! ## `_swap` lemmas -/

theorem swap_heap (e : PokerGameEngine) (i j : Nat) :
    (_swap e i j).heap = (e.heap.set i (e.heap.getD j dflt)).set j (e.heap.getD i dflt) := rfl

theorem swap_position_map (e : PokerGameEngine) (i j k : Nat) :
    (_swap e i j).position_map k =
      if k = (elemAt e i).player_id then some j
      else if k = (elemAt e j).player_id then some i
      else e.position_map k := rfl

theorem swap_length (e : PokerGameEngine) (i j : Nat) :
    (_swap e i j).heap.length = e.heap.length := by
  rw [swap_heap]; simp

theorem swap_elemAt (e : PokerGameEngine) {i j : Nat} (hi : i < e.heap.length)
    (hj : j < e.heap.length) (k : Nat) :
    elemAt (_swap e i j) k =
      if k = j then elemAt e i else if k = i then elemAt e j else elemAt e k := by
  have hj' : j < (e.heap.set i (e.heap.getD j dflt)).length := by simpa using hj
  show ((e.heap.set i (e.heap.getD j dflt)).set j (e.heap.getD i dflt)).getD k dflt = _
  by_cases h1 : k = j
  · subst h1
    rw [if_pos rfl]
    exact getD_set_self _ _ _ hj'
  · rw [getD_set_ne _ _ _ (Ne.symm h1), if_neg h1]
    by_cases h2 : k = i
    · subst h2
      rw [if_pos rfl]
      exact getD_set_self _ _ _ hi
    · rw [getD_set_ne _ _ _ (Ne.symm h2), if_neg h2]
      rfl

theorem swap_hscore (e : PokerGameEngine) {i j : Nat} (hi : i < e.heap.length)
    (hj : j < e.heap.length) (k : Nat) :
    hscore (_swap e i j) k =
      if k = j then hscore e i else if k = i then hscore e j else hscore e k := by
  unfold hscore
  rw [swap_elemAt e hi hj]
  split_ifs <;> rfl

theorem swap_pidAt (e : PokerGameEngine) {i j : Nat} (hi : i < e.heap.length)
    (hj : j < e.heap.length) (k : Nat) :
    pidAt (_swap e i j) k =
      if k = j then pidAt e i else if k = i then pidAt e j else pidAt e k := by
  unfold pidAt
  rw [swap_elemAt e hi hj]
  split_ifs <;> rfl

theorem swap_perm (e : PokerGameEngine) {i j : Nat} (hi : i < e.heap.length)
    (hj : j < e.heap.length) : (_swap e i j).heap.Perm e.heap := by
  rw [swap_heap]
  exact set_set_perm e.heap i j dflt hi hj

theorem swap_mapSound (e : PokerGameEngine) {i j : Nat} (hs : mapSound e)
    (hi : i < e.heap.length) (hj : j < e.heap.length) : mapSound (_swap e i j) := by
  intro k m hm
  rw [swap_position_map] at hm
  rw [swap_length]
  by_cases h1 : k = (elemAt e i).player_id
  · rw [if_pos h1] at hm
    cases hm
    refine ⟨hj, ?_⟩
    rw [swap_pidAt e hi hj, if_pos rfl, h1]
    rfl
  · rw [if_neg h1] at hm
    by_cases h2 : k = (elemAt e j).player_id
    · rw [if_pos h2] at hm
      cases hm
      refine ⟨hi, ?_⟩
      rw [swap_pidAt e hi hj]
      by_cases hij : i = j
      · rw [if_pos hij, h2, hij]
        rfl
      · rw [if_neg hij, if_pos rfl, h2]
        rfl
    · rw [if_neg h2] at hm
      obtain ⟨hmn, hpid⟩ := hs k m hm
      refine ⟨hmn, ?_⟩
      rw [swap_pidAt e hi hj]
      have hmj : m ≠ j := by
        intro hh
        subst hh
        exact h2 (by rw [← hpid]; rfl)
      have hmi : m ≠ i := by
        intro hh
        subst hh
        exact h1 (by rw [← hpid]; rfl)
      rw [if_neg hmj, if_neg hmi]
      exact hpid

theorem swap_mapComplete (e : PokerGameEngine) {i j : Nat} (hc : mapComplete e)
    (hi : i < e.heap.length) (hj : j < e.heap.length) : mapComplete (_swap e i j) := by
  have inj : ∀ a b, a < e.heap.length → b < e.heap.length → pidAt e a = pidAt e b → a = b := by
    intro a b ha hb hab
    have e1 := hc a ha
    have e2 := hc b hb
    rw [hab, e2] at e1
    exact (Option.some.inj e1).symm
  intro m hm
  rw [swap_length] at hm
  rw [swap_position_map, swap_pidAt e hi hj]
  by_cases h1 : m = j
  · rw [if_pos h1, if_pos (show pidAt e i = (elemAt e i).player_id from rfl), h1]
  · rw [if_neg h1]
    by_cases h2 : m = i
    · rw [if_pos h2]
      have hne : pidAt e j ≠ (elemAt e i).player_id := by
        intro hh
        exact h1 (h2.trans (inj i j hi hj hh.symm))
      rw [if_neg hne, if_pos (show pidAt e j = (elemAt e j).player_id from rfl), h2]
    · rw [if_neg h2]
      have hne1 : pidAt e m ≠ (elemAt e i).player_id := by
        intro hh
        exact h2 (inj m i hm hi hh)
      have hne2 : pidAt e m ≠ (elemAt e j).player_id := by
        intro hh
        exact h1 (inj m j hm hj hh)
      rw [if_neg hne1, if_neg hne2]
      exact hc m hm

/-! ## `_sift_up` lemmas -/

theorem parent_le (i : Nat) : _parent i ≤ i := by
  simp only [_parent]; omega

theorem parent_lt {i : Nat} (h : 0 < i) : _parent i < i := by
  simp only [_parent]; omega

theorem siftUpGo_length : ∀ (fuel : Nat) (e : PokerGameEngine) (i : Nat),
    (siftUpGo fuel e i).heap.length = e.heap.length := by
  intro fuel
  induction fuel with
  | zero => intro e i; rfl
  | succ f ih =>
    intro e i
    simp only [siftUpGo]
    split
    · rw [ih, swap_length]
    · rfl

theorem siftUpGo_perm : ∀ (fuel : Nat) (e : PokerGameEngine) (i : Nat),
    i < e.heap.length → (siftUpGo fuel e i).heap.Perm e.heap := by
  intro fuel
  induction fuel with
  | zero => intro e i _; exact List.Perm.refl _
  | succ f ih =>
    intro e i hi
    simp only [siftUpGo]
    split
    · next h =>
      have hp : _parent i < e.heap.length := lt_trans (parent_lt h.1) hi
      have hp' : _parent i < (_swap e i (_parent i)).heap.length := by
        rw [swap_length]; exact hp
      exact (ih _ _ hp').trans (swap_perm e hi hp)
    · exact List.Perm.refl _

theorem siftUpGo_mapSound : ∀ (fuel : Nat) (e : PokerGameEngine) (i : Nat),
    i < e.heap.length → mapSound e → mapSound (siftUpGo fuel e i) := by
  intro fuel
  induction fuel with
  | zero => intro e i _ hs; exact hs
  | succ f ih =>
    intro e i hi hs
    simp only [siftUpGo]
    split
    · next h =>
      have hp : _parent i < e.heap.length := lt_trans (parent_lt h.1) hi
      exact ih _ _ (by rw [swap_length]; exact hp) (swap_mapSound e hs hi hp)
    · exact hs

theorem siftUpGo_mapComplete : ∀ (fuel : Nat) (e : PokerGameEngine) (i : Nat),
    i < e.heap.length → mapComplete e → mapComplete (siftUpGo fuel e i) := by
  intro fuel
  induction fuel with
  | zero => intro e i _ hc; exact hc
  | succ f ih =>
    intro e i hi hc
    simp only [siftUpGo]
    split
    · next h =>
      have hp : _parent i < e.heap.length := lt_trans (parent_lt h.1) hi
      exact ih _ _ (by rw [swap_length]; exact hp) (swap_mapComplete e hc hi hp)
    · exact hc

theorem siftUpInv_swap_step (e : PokerGameEngine) {i : Nat} (hi : i < e.heap.length)
    (h0 : 0 < i) (hgt : hscore e i > hscore e (_parent i)) (hinv : siftUpInv e i) :
    siftUpInv (_swap e i (_parent i)) (_parent i) := by
  obtain ⟨hA, hB⟩ := hinv
  have hpi := parent_lt h0
  have hp : _parent i < e.heap.length := lt_trans hpi hi
  have hsc : ∀ k, hscore (_swap e i (_parent i)) k =
      if k = _parent i then hscore e i
      else if k = i then hscore e (_parent i) else hscore e k :=
    fun k => swap_hscore e hi hp k
  have hlen : (_swap e i (_parent i)).heap.length = e.heap.length := swap_length e i (_parent i)
  constructor
  · intro j hj0 hjn hne
    rw [hlen] at hjn
    rw [hsc j, hsc (_parent j)]
    by_cases hji : j = i
    · subst hji
      rw [if_pos rfl, if_neg (by omega), if_pos rfl]
      exact hgt.le
    · by_cases hpj : _parent j = i
      · have hc1 : ¬(_parent j = _parent i) := by rw [hpj]; omega
        have hc3 : ¬(j = _parent i) := by
          intro hh
          rw [hh] at hpj
          have h1 := parent_le (_parent i)
          omega
        rw [if_neg hc1, if_pos hpj, if_neg hc3, if_neg hji]
        exact hB h0 j hjn hpj
      · by_cases hc1 : _parent j = _parent i
        · rw [if_pos hc1, if_neg hne, if_neg hji]
          have ha := hA j hj0 hjn hji
          rw [hc1] at ha
          exact le_trans ha hgt.le
        · rw [if_neg hc1, if_neg hpj, if_neg hne, if_neg hji]
          exact hA j hj0 hjn hji
  · intro hp0 c hcn hc
    rw [hlen] at hcn
    have hppne : _parent (_parent i) ≠ _parent i := by
      have h1 := parent_lt hp0
      omega
    have hppi : _parent (_parent i) ≠ i := by
      have h1 := parent_lt hp0
      have h2 := parent_le (_parent i)
      omega
    rw [hsc c, hsc (_parent (_parent i)), if_neg hppne, if_neg hppi]
    by_cases hci : c = i
    · rw [if_neg (by omega), if_pos hci]
      exact hA (_parent i) hp0 hp (by omega)
    · have hcp : ¬(c = _parent i) := by
        intro hh
        rw [hh] at hc
        have h1 := parent_lt hp0
        omega
      rw [if_neg hcp, if_neg hci]
      have hc0 : 0 < c := by
        rcases Nat.eq_zero_or_pos c with h | h
        · rw [h] at hc
          have : _parent 0 = 0 := rfl
          omega
        · exact h
      have ha1 := hA c hc0 hcn hci
      rw [hc] at ha1
      have ha2 := hA (_parent i) hp0 hp (by omega)
      exact le_trans ha1 ha2

theorem siftUpGo_heapInv : ∀ (fuel : Nat) (e : PokerGameEngine) (i : Nat),
    i < fuel → i < e.heap.length → siftUpInv e i → heapInv (siftUpGo fuel e i) := by
  intro fuel
  induction fuel with
  | zero => intro e i h; omega
  | succ f ih =>
    intro e i hif hin hinv
    simp only [siftUpGo]
    split
    · next h =>
      have hp := parent_lt h.1
      exact ih _ _ (by omega) (by rw [swap_length]; omega)
        (siftUpInv_swap_step e hin h.1 h.2 hinv)
    · next h =>
      intro j hj0 hjn
      by_cases hji : j = i
      · subst hji
        exact not_lt.mp (fun hgt => h ⟨hj0, hgt⟩)
      · exact hinv.1 j hj0 hjn hji

theorem sift_up_heapInv (e : PokerGameEngine) {i : Nat} (hi : i < e.heap.length)
    (hinv : siftUpInv e i) : heapInv (_sift_up e i) :=
  siftUpGo_heapInv (i + 1) e i (Nat.lt_succ_self i) hi hinv

theorem sift_up_length (e : PokerGameEngine) (i : Nat) :
    (_sift_up e i).heap.length = e.heap.length :=
  siftUpGo_length (i + 1) e i

theorem sift_up_perm (e : PokerGameEngine) {i : Nat} (hi : i < e.heap.length) :
    (_sift_up e i).heap.Perm e.heap :=
  siftUpGo_perm (i + 1) e i hi

theorem sift_up_mapSound (e : PokerGameEngine) {i : Nat} (hi : i < e.heap.length)
    (hs : mapSound e) : mapSound (_sift_up e i) :=
  siftUpGo_mapSound (i + 1) e i hi hs

theorem sift_up_mapComplete (e : PokerGameEngine) {i : Nat} (hi : i < e.heap.length)
    (hc : mapComplete e) : mapComplete (_sift_up e i) :=
  siftUpGo_mapComplete (i + 1) e i hi hc

theorem sift_up_id (e : PokerGameEngine) {i : Nat}
    (h : ¬(0 < i ∧ hscore e i > hscore e (_parent i))) : _sift_up e i = e := by
  show siftUpGo (i + 1) e i = e
  simp only [siftUpGo]
  rw [if_neg h]

/-! ## `_sift_down` lemmas -/

theorem parent_eq_iff {c i : Nat} :
    _parent c = i ↔ (c = _left i ∨ c = _right i ∨ (c = 0 ∧ i = 0)) := by
  simp only [_parent, _left, _right]
  omega

theorem siftTarget_cases (e : PokerGameEngine) (i : Nat) :
    (siftTarget e i = i ∧
      ∀ c, c < e.heap.length → _parent c = i → hscore e i ≥ hscore e c) ∨
    (siftTarget e i ≠ i ∧ i < siftTarget e i ∧ siftTarget e i < e.heap.length ∧
      _parent (siftTarget e i) = i ∧ hscore e (siftTarget e i) > hscore e i ∧
      ∀ c, c < e.heap.length → _parent c = i → hscore e (siftTarget e i) ≥ hscore e c) := by
  have hl : i < _left i := by simp only [_left]; omega
  have hr : i < _right i := by simp only [_right]; omega
  have hpl : _parent (_left i) = i := by simp only [_parent, _left]; omega
  have hpr : _parent (_right i) = i := by simp only [_parent, _right]; omega
  simp only [siftTarget]
  by_cases hL : _left i < e.heap.length ∧ hscore e (_left i) > hscore e i
  · rw [if_pos hL]
    by_cases hR : _right i < e.heap.length ∧ hscore e (_right i) > hscore e (_left i)
    · rw [if_pos hR]
      refine Or.inr ⟨by omega, by omega, hR.1, hpr, gt_trans hR.2 hL.2, ?_⟩
      intro c hc hpc
      rcases parent_eq_iff.mp hpc with h | h | h
      · rw [h]; exact hR.2.le
      · rw [h]
      · have hci : c = i := by omega
        rw [hci]
        exact (gt_trans hR.2 hL.2).le
    · rw [if_neg hR]
      refine Or.inr ⟨by omega, hl, hL.1, hpl, hL.2, ?_⟩
      intro c hc hpc
      rcases parent_eq_iff.mp hpc with h | h | h
      · rw [h]
      · rw [h]
        exact not_lt.mp (fun hgt => hR ⟨h ▸ hc, hgt⟩)
      · have hci : c = i := by omega
        rw [hci]
        exact hL.2.le
  · rw [if_neg hL]
    by_cases hR : _right i < e.heap.length ∧ hscore e (_right i) > hscore e i
    · rw [if_pos hR]
      refine Or.inr ⟨by omega, hr, hR.1, hpr, hR.2, ?_⟩
      intro c hc hpc
      rcases parent_eq_iff.mp hpc with h | h | h
      · rw [h]
        exact le_trans (not_lt.mp (fun hgt => hL ⟨h ▸ hc, hgt⟩)) hR.2.le
      · rw [h]
      · have hci : c = i := by omega
        rw [hci]
        exact hR.2.le
    · rw [if_neg hR]
      refine Or.inl ⟨rfl, ?_⟩
      intro c hc hpc
      rcases parent_eq_iff.mp hpc with h | h | h
      · rw [h]
        exact not_lt.mp (fun hgt => hL ⟨h ▸ hc, hgt⟩)
      · rw [h]
        exact not_lt.mp (fun hgt => hR ⟨h ▸ hc, hgt⟩)
      · have hci : c = i := by omega
        rw [hci]

theorem siftDownGo_length : ∀ (fuel : Nat) (e : PokerGameEngine) (i : Nat),
    (siftDownGo fuel e i).heap.length = e.heap.length := by
  intro fuel
  induction fuel with
  | zero => intro e i; rfl
  | succ f ih =>
    intro e i
    simp only [siftDownGo]
    split
    · rw [ih, swap_length]
    · rfl

theorem siftDownGo_perm : ∀ (fuel : Nat) (e : PokerGameEngine) (i : Nat),
    (siftDownGo fuel e i).heap.Perm e.heap := by
  intro fuel
  induction fuel with
  | zero => intro e i; exact List.Perm.refl _
  | succ f ih =>
    intro e i
    simp only [siftDownGo]
    split
    · next h =>
      rcases siftTarget_cases e i with hL | hR
      · exact absurd hL.1 h
      · exact (ih _ _).trans (swap_perm e (lt_trans hR.2.1 hR.2.2.1) hR.2.2.1)
    · exact List.Perm.refl _

theorem siftDownGo_mapSound : ∀ (fuel : Nat) (e : PokerGameEngine) (i : Nat),
    mapSound e → mapSound (siftDownGo fuel e i) := by
  intro fuel
  induction fuel with
  | zero => intro e i hs; exact hs
  | succ f ih =>
    intro e i hs
    simp only [siftDownGo]
    split
    · next h =>
      rcases siftTarget_cases e i with hL | hR
      · exact absurd hL.1 h
      · exact ih _ _ (swap_mapSound e hs (lt_trans hR.2.1 hR.2.2.1) hR.2.2.1)
    · exact hs

theorem siftDownGo_mapComplete : ∀ (fuel : Nat) (e : PokerGameEngine) (i : Nat),
    mapComplete e → mapComplete (siftDownGo fuel e i) := by
  intro fuel
  induction fuel with
  | zero => intro e i hc; exact hc
  | succ f ih =>
    intro e i hc
    simp only [siftDownGo]
    split
    · next h =>
      rcases siftTarget_cases e i with hL | hR
      · exact absurd hL.1 h
      · exact ih _ _ (swap_mapComplete e hc (lt_trans hR.2.1 hR.2.2.1) hR.2.2.1)
    · exact hc

theorem siftDownGo_oob : ∀ (fuel : Nat) (e : PokerGameEngine) (i : Nat),
    e.heap.length ≤ i → siftDownGo fuel e i = e := by
  intro fuel
  induction fuel with
  | zero => intro e i _; rfl
  | succ f _ =>
    intro e i hn
    simp only [siftDownGo]
    rcases siftTarget_cases e i with hL | hR
    · rw [if_neg (not_not_intro hL.1)]
    · exact absurd hR.2.2.1 (by omega)

theorem siftDownInv_swap_step (e : PokerGameEngine) {i m : Nat}
    (him : i < m) (hmn : m < e.heap.length) (hpm : _parent m = i)
    (hgt : hscore e m > hscore e i)
    (hdom : ∀ c, c < e.heap.length → _parent c = i → hscore e m ≥ hscore e c)
    (hinv : siftDownInv e i) : siftDownInv (_swap e i m) m := by
  obtain ⟨hA, hB⟩ := hinv
  have hin : i < e.heap.length := lt_trans him hmn
  have hsc : ∀ k, hscore (_swap e i m) k =
      if k = m then hscore e i else if k = i then hscore e m else hscore e k :=
    fun k => swap_hscore e hin hmn k
  have hlen := swap_length e i m
  constructor
  · intro j hj0 hjn hne
    rw [hlen] at hjn
    rw [hsc j, hsc (_parent j)]
    by_cases hjm : j = m
    · rw [if_pos hjm, if_neg (by rw [hjm, hpm]; omega), if_pos (by rw [hjm, hpm])]
      exact hgt.le
    · by_cases hpji : _parent j = i
      · have hji : i < j := by
          have := parent_eq_iff.mp hpji
          simp only [_left, _right] at this
          omega
        rw [if_neg (by rw [hpji]; omega), if_pos hpji, if_neg hjm, if_neg (by omega)]
        exact hdom j hjn hpji
      · by_cases hji : j = i
        · rw [if_neg hne, if_neg hpji, if_neg hjm, if_pos hji, hji]
          exact hB (hji ▸ hj0) m hmn hpm
        · rw [if_neg hne, if_neg hpji, if_neg hjm, if_neg hji]
          exact hA j hj0 hjn hpji
  · intro hm0 c hcn hpc
    rw [hlen] at hcn
    have hc0 : 0 < c := by
      rcases Nat.eq_zero_or_pos c with h | h
      · exfalso
        rw [h] at hpc
        have hz : _parent 0 = 0 := rfl
        omega
      · exact h
    have hcm : m < c := by
      have := parent_eq_iff.mp hpc
      simp only [_left, _right] at this
      omega
    rw [hsc c, hsc (_parent m)]
    rw [if_neg (show ¬(c = m) by omega), if_neg (show ¬(c = i) by omega)]
    rw [if_neg (show ¬(_parent m = m) by rw [hpm]; omega), if_pos hpm]
    have ha := hA c hc0 hcn (by rw [hpc]; omega)
    rw [hpc] at ha
    exact ha

theorem siftDownGo_heapInv : ∀ (fuel : Nat) (e : PokerGameEngine) (i : Nat),
    e.heap.length - i ≤ fuel → siftDownInv e i → heapInv (siftDownGo fuel e i) := by
  intro fuel
  induction fuel with
  | zero =>
    intro e i hf hinv
    show heapInv e
    intro j hj0 hjn
    by_cases hpj : _parent j = i
    · exfalso
      have := parent_eq_iff.mp hpj
      simp only [_left, _right] at this
      omega
    · exact hinv.1 j hj0 hjn hpj
  | succ f ih =>
    intro e i hf hinv
    simp only [siftDownGo]
    split
    · next h =>
      rcases siftTarget_cases e i with hL | hR
      · exact absurd hL.1 h
      · obtain ⟨_, him, hmn, hpm, hgt, hdom⟩ := hR
        refine ih _ _ ?_ (siftDownInv_swap_step e him hmn hpm hgt hdom hinv)
        rw [swap_length]
        omega
    · next h =>
      intro j hj0 hjn
      by_cases hpj : _parent j = i
      · rcases siftTarget_cases e i with hL | hR
        · rw [hpj]
          exact hL.2 j hjn hpj
        · exact absurd hR.1 h
      · exact hinv.1 j hj0 hjn hpj

theorem siftDownGo_id_of_heapInv : ∀ (fuel : Nat) (e : PokerGameEngine) (i : Nat),
    heapInv e → siftDownGo fuel e i = e := by
  intro fuel
  induction fuel with
  | zero => intro e i _; rfl
  | succ f _ =>
    intro e i hh
    simp only [siftDownGo]
    rcases siftTarget_cases e i with hL | hR
    · rw [if_neg (not_not_intro hL.1)]
    · exfalso
      obtain ⟨hne, him, hmn, hpm, hgt, _⟩ := hR
      have := hh (siftTarget e i) (by omega) hmn
      rw [hpm] at this
      exact absurd hgt (not_lt.mpr this)

/-- Fuel-irrelevance for the sift-up loop: any fuel above the start index
gives the same result, i.e. the loop always exits by its own condition. -/
theorem siftUpGo_fuel : ∀ (fuel fuel' : Nat) (e : PokerGameEngine) (i : Nat),
    i < fuel → i < fuel' → siftUpGo fuel e i = siftUpGo fuel' e i := by
  intro fuel
  induction fuel with
  | zero => intro fuel' e i h; omega
  | succ f ih =>
    intro fuel' e i h h'
    cases fuel' with
    | zero => omega
    | succ f' =>
      simp only [siftUpGo]
      split
      · next hc =>
        have hp := parent_lt hc.1
        exact ih f' _ _ (by omega) (by omega)
      · rfl

/-- Fuel-irrelevance for the sift-down recursion: any fuel at least
`length - i` gives the same result, because every recursive call strictly
increases the index while staying inside the array. -/
theorem siftDownGo_fuel : ∀ (fuel fuel' : Nat) (e : PokerGameEngine) (i : Nat),
    e.heap.length - i ≤ fuel → e.heap.length - i ≤ fuel' →
    siftDownGo fuel e i = siftDownGo fuel' e i := by
  intro fuel
  induction fuel with
  | zero =>
    intro fuel' e i h _
    exact (siftDownGo_oob fuel' e i (by omega)).symm
  | succ f ih =>
    intro fuel' e i h h'
    by_cases hn : e.heap.length ≤ i
    · rw [siftDownGo_oob _ _ _ hn, siftDownGo_oob _ _ _ hn]
    · cases fuel' with
      | zero => omega
      | succ f' =>
        simp only [siftDownGo]
        split
        · next hc =>
          rcases siftTarget_cases e i with hL | hR
          · exact absurd hL.1 hc
          · refine ih f' _ _ ?_ ?_ <;> rw [swap_length] <;> omega
        · rfl

theorem sift_down_length (e : PokerGameEngine) (i : Nat) :
    (_sift_down e i).heap.length = e.heap.length :=
  siftDownGo_length e.heap.length e i

theorem sift_down_perm (e : PokerGameEngine) (i : Nat) :
    (_sift_down e i).heap.Perm e.heap :=
  siftDownGo_perm e.heap.length e i

theorem sift_down_mapSound (e : PokerGameEngine) (i : Nat) (hs : mapSound e) :
    mapSound (_sift_down e i) :=
  siftDownGo_mapSound e.heap.length e i hs

theorem sift_down_mapComplete (e : PokerGameEngine) (i : Nat) (hc : mapComplete e) :
    mapComplete (_sift_down e i) :=
  siftDownGo_mapComplete e.heap.length e i hc

theorem sift_down_heapInv (e : PokerGameEngine) (i : Nat) (hinv : siftDownInv e i) :
    heapInv (_sift_down e i) :=
  siftDownGo_heapInv e.heap.length e i (by omega) hinv

theorem sift_down_id_of_heapInv (e : PokerGameEngine) (i : Nat) (hh : heapInv e) :
    _sift_down e i = e :=
  siftDownGo_id_of_heapInv e.heap.length e i hh

/-! ## `add_player` lemmas -/

/-- Proof-layer abbreviation: the state of `add_player` after the append and
the map write, before the sift-up. -/
def preAddState (e : PokerGameEngine) (p : Player) : PokerGameEngine :=
  ⟨e.heap ++ [p],
   fun k => if k = p.player_id then some e.heap.length else e.position_map k⟩

theorem add_player_eq (e : PokerGameEngine) (p : Player) :
    add_player e p = _sift_up (preAddState e p) e.heap.length := by
  have hlen : (e.heap ++ [p]).length - 1 = e.heap.length := by simp
  simp only [add_player, preAddState]
  rw [hlen]

theorem preAdd_length (e : PokerGameEngine) (p : Player) :
    (preAddState e p).heap.length = e.heap.length + 1 := by
  simp [preAddState]

theorem preAdd_elemAt_lt (e : PokerGameEngine) (p : Player) {j : Nat}
    (hj : j < e.heap.length) : elemAt (preAddState e p) j = elemAt e j :=
  getD_append_left e.heap [p] dflt hj

theorem preAdd_elemAt_last (e : PokerGameEngine) (p : Player) :
    elemAt (preAddState e p) e.heap.length = p :=
  getD_append_last e.heap p dflt

theorem preAdd_mapSound (e : PokerGameEngine) (p : Player) (hs : mapSound e) :
    mapSound (preAddState e p) := by
  intro k m hm
  rw [preAdd_length]
  by_cases hk : k = p.player_id
  · have : some e.heap.length = some m := by
      rw [← hm]
      show _ = (if k = p.player_id then some e.heap.length else e.position_map k)
      rw [if_pos hk]
    cases this
    refine ⟨by omega, ?_⟩
    unfold pidAt
    rw [preAdd_elemAt_last, hk]
  · have hm' : e.position_map k = some m := by
      rw [← hm]
      show _ = (if k = p.player_id then some e.heap.length else e.position_map k)
      rw [if_neg hk]
    obtain ⟨hmn, hpid⟩ := hs k m hm'
    refine ⟨by omega, ?_⟩
    unfold pidAt
    rw [preAdd_elemAt_lt e p hmn]
    exact hpid

theorem preAdd_mapComplete (e : PokerGameEngine) (p : Player) (hc : mapComplete e)
    (hfresh : e.position_map p.player_id = none) : mapComplete (preAddState e p) := by
  intro m hm
  rw [preAdd_length] at hm
  by_cases hmn : m = e.heap.length
  · subst hmn
    unfold pidAt
    rw [preAdd_elemAt_last]
    show (if p.player_id = p.player_id then some e.heap.length else _) = _
    rw [if_pos rfl]
  · have hmlt : m < e.heap.length := by omega
    unfold pidAt
    rw [preAdd_elemAt_lt e p hmlt]
    have hne : (elemAt e m).player_id ≠ p.player_id := by
      intro hh
      have := hc m hmlt
      unfold pidAt at this
      rw [hh, hfresh] at this
      cases this
    show (if (elemAt e m).player_id = p.player_id then some e.heap.length else _) = _
    rw [if_neg hne]
    exact hc m hmlt

theorem preAdd_siftUpInv (e : PokerGameEngine) (p : Player) (hh : heapInv e) :
    siftUpInv (preAddState e p) e.heap.length := by
  constructor
  · intro j hj0 hjn hne
    rw [preAdd_length] at hjn
    have hjlt : j < e.heap.length := by omega
    have hplt : _parent j < e.heap.length := by
      have := parent_le j
      omega
    unfold hscore
    rw [preAdd_elemAt_lt e p hjlt, preAdd_elemAt_lt e p hplt]
    exact hh j hj0 hjlt
  · intro h0 c hcn hpc
    exfalso
    rw [preAdd_length] at hcn
    have := parent_eq_iff.mp hpc
    simp only [_left, _right] at this
    omega

theorem add_length (e : PokerGameEngine) (p : Player) :
    (add_player e p).heap.length = e.heap.length + 1 := by
  rw [add_player_eq, sift_up_length, preAdd_length]

theorem add_perm (e : PokerGameEngine) (p : Player) :
    (add_player e p).heap.Perm (p :: e.heap) := by
  rw [add_player_eq]
  have hi : e.heap.length < (preAddState e p).heap.length := by
    rw [preAdd_length]; omega
  have h1 := sift_up_perm (preAddState e p) hi
  have h2 : (preAddState e p).heap = e.heap ++ [p] := rfl
  rw [h2] at h1
  exact h1.trans (List.perm_append_singleton p e.heap)

theorem add_WF (e : PokerGameEngine) (p : Player) (h : WF e) : WF (add_player e p) := by
  obtain ⟨hh, hs⟩ := h
  rw [add_player_eq]
  have hi : e.heap.length < (preAddState e p).heap.length := by
    rw [preAdd_length]; omega
  exact ⟨sift_up_heapInv _ hi (preAdd_siftUpInv e p hh),
         sift_up_mapSound _ hi (preAdd_mapSound e p hs)⟩

theorem add_mapSound (e : PokerGameEngine) (p : Player) (hs : mapSound e) :
    mapSound (add_player e p) := by
  rw [add_player_eq]
  have hi : e.heap.length < (preAddState e p).heap.length := by
    rw [preAdd_length]; omega
  exact sift_up_mapSound _ hi (preAdd_mapSound e p hs)

theorem add_mapComplete (e : PokerGameEngine) (p : Player) (hc : mapComplete e)
    (hfresh : e.position_map p.player_id = none) : mapComplete (add_player e p) := by
  rw [add_player_eq]
  have hi : e.heap.length < (preAddState e p).heap.length := by
    rw [preAdd_length]; omega
  exact sift_up_mapComplete _ hi (preAdd_mapComplete e p hc hfresh)

/-! ## `update_hand_strength` lemmas -/

/-- Proof-layer abbreviation: the state of `update_hand_strength` after the
in-place score overwrite, before the directional sift. -/
def setScoreState (e : PokerGameEngine) (index : Nat) (s : Int) : PokerGameEngine :=
  ⟨e.heap.set index { elemAt e index with hand_score := s }, e.position_map⟩

theorem update_none (e : PokerGameEngine) {pid : Nat} (s : Int)
    (h : e.position_map pid = none) : update_hand_strength e pid s = e := by
  unfold update_hand_strength
  rw [h]

theorem update_some (e : PokerGameEngine) {pid index : Nat} (s : Int)
    (h : e.position_map pid = some index) :
    update_hand_strength e pid s =
      if s > hscore e index then _sift_up (setScoreState e index s) index
      else _sift_down (setScoreState e index s) index := by
  simp only [update_hand_strength, setScoreState]
  rw [h]

theorem setScore_length (e : PokerGameEngine) (index : Nat) (s : Int) :
    (setScoreState e index s).heap.length = e.heap.length := by
  simp [setScoreState]

theorem setScore_elemAt (e : PokerGameEngine) {index : Nat} (s : Int)
    (hn : index < e.heap.length) (j : Nat) :
    elemAt (setScoreState e index s) j =
      if j = index then { elemAt e index with hand_score := s } else elemAt e j := by
  show (e.heap.set index _).getD j dflt = _
  by_cases hj : j = index
  · subst hj
    rw [if_pos rfl]
    exact getD_set_self e.heap _ dflt hn
  · rw [if_neg hj, getD_set_ne e.heap _ dflt (Ne.symm hj)]
    rfl

theorem setScore_hscore (e : PokerGameEngine) {index : Nat} (s : Int)
    (hn : index < e.heap.length) (j : Nat) :
    hscore (setScoreState e index s) j = if j = index then s else hscore e j := by
  unfold hscore
  rw [setScore_elemAt e s hn j]
  split_ifs <;> rfl

theorem setScore_pidAt (e : PokerGameEngine) {index : Nat} (s : Int)
    (hn : index < e.heap.length) (j : Nat) :
    pidAt (setScoreState e index s) j = pidAt e j := by
  unfold pidAt
  rw [setScore_elemAt e s hn j]
  split_ifs with h
  · rw [h]
  · rfl

theorem setScore_mapSound (e : PokerGameEngine) {index : Nat} (s : Int)
    (hn : index < e.heap.length) (hs : mapSound e) : mapSound (setScoreState e index s) := by
  intro k m hm
  have hm' : e.position_map k = some m := hm
  obtain ⟨hmn, hpid⟩ := hs k m hm'
  rw [setScore_length]
  exact ⟨hmn, by rw [setScore_pidAt e s hn m]; exact hpid⟩

theorem setScore_mapComplete (e : PokerGameEngine) {index : Nat} (s : Int)
    (hn : index < e.heap.length) (hc : mapComplete e) : mapComplete (setScoreState e index s) := by
  intro m hm
  rw [setScore_length] at hm
  rw [setScore_pidAt e s hn m]
  exact hc m hm

theorem setScore_siftUpInv (e : PokerGameEngine) {index : Nat} {s : Int}
    (hn : index < e.heap.length) (hh : heapInv e) (hgt : s > hscore e index) :
    siftUpInv (setScoreState e index s) index := by
  have hkid : ∀ c, 0 < c → c < e.heap.length → _parent c = index →
      hscore e c ≤ hscore e index := by
    intro c hc0 hcn hpc
    have := hh c hc0 hcn
    rw [hpc] at this
    exact this
  constructor
  · intro j hj0 hjn hne
    rw [setScore_length] at hjn
    rw [setScore_hscore e s hn, setScore_hscore e s hn, if_neg hne]
    by_cases hpj : _parent j = index
    · rw [if_pos hpj]
      exact le_trans (hkid j hj0 hjn hpj) hgt.le
    · rw [if_neg hpj]
      exact hh j hj0 hjn
  · intro h0 c hcn hpc
    rw [setScore_length] at hcn
    have hpne : _parent index ≠ index := by
      have := parent_lt h0
      omega
    have hcne : c ≠ index := by
      intro hh'
      rw [hh'] at hpc
      have := parent_lt h0
      omega
    have hc0 : 0 < c := by
      rcases Nat.eq_zero_or_pos c with h | h
      · exfalso
        rw [h] at hpc
        have hz : _parent 0 = 0 := rfl
        omega
      · exact h
    rw [setScore_hscore e s hn, setScore_hscore e s hn, if_neg hpne, if_neg hcne]
    exact le_trans (hkid c hc0 hcn hpc) (hh index h0 hn)

theorem setScore_siftDownInv (e : PokerGameEngine) {index : Nat} {s : Int}
    (hn : index < e.heap.length) (hh : heapInv e) (hle : s ≤ hscore e index) :
    siftDownInv (setScoreState e index s) index := by
  have hkid : ∀ c, 0 < c → c < e.heap.length → _parent c = index →
      hscore e c ≤ hscore e index := by
    intro c hc0 hcn hpc
    have := hh c hc0 hcn
    rw [hpc] at this
    exact this
  constructor
  · intro j hj0 hjn hne
    rw [setScore_length] at hjn
    rw [setScore_hscore e s hn, setScore_hscore e s hn, if_neg hne]
    by_cases hji : j = index
    · rw [if_pos hji]
      subst hji
      exact le_trans hle (hh j hj0 hjn)
    · rw [if_neg hji]
      exact hh j hj0 hjn
  · intro h0 c hcn hpc
    rw [setScore_length] at hcn
    have hpne : _parent index ≠ index := by
      have := parent_lt h0
      omega
    have hcne : c ≠ index := by
      intro hh'
      rw [hh'] at hpc
      have := parent_lt h0
      omega
    have hc0 : 0 < c := by
      rcases Nat.eq_zero_or_pos c with h | h
      · exfalso
        rw [h] at hpc
        have hz : _parent 0 = 0 := rfl
        omega
      · exact h
    rw [setScore_hscore e s hn, setScore_hscore e s hn, if_neg hpne, if_neg hcne]
    exact le_trans (hkid c hc0 hcn hpc) (hh index h0 hn)

theorem update_WF (e : PokerGameEngine) (pid : Nat) (s : Int) (h : WF e) :
    WF (update_hand_strength e pid s) := by
  obtain ⟨hh, hs⟩ := h
  cases hm : e.position_map pid with
  | none => rw [update_none e s hm]; exact ⟨hh, hs⟩
  | some index =>
    obtain ⟨hn, _⟩ := hs pid index hm
    rw [update_some e s hm]
    have hi : index < (setScoreState e index s).heap.length := by
      rw [setScore_length]; exact hn
    split
    · next hgt =>
      exact ⟨sift_up_heapInv _ hi (setScore_siftUpInv e hn hh hgt),
             sift_up_mapSound _ hi (setScore_mapSound e s hn hs)⟩
    · next hle =>
      exact ⟨sift_down_heapInv _ _ (setScore_siftDownInv e hn hh (not_lt.mp hle)),
             sift_down_mapSound _ _ (setScore_mapSound e s hn hs)⟩

theorem update_mapComplete (e : PokerGameEngine) (pid : Nat) (s : Int)
    (hs : mapSound e) (hc : mapComplete e) : mapComplete (update_hand_strength e pid s) := by
  cases hm : e.position_map pid with
  | none => rw [update_none e s hm]; exact hc
  | some index =>
    obtain ⟨hn, _⟩ := hs pid index hm
    rw [update_some e s hm]
    have hi : index < (setScoreState e index s).heap.length := by
      rw [setScore_length]; exact hn
    split
    · exact sift_up_mapComplete _ hi (setScore_mapComplete e s hn hc)
    · exact sift_down_mapComplete _ _ (setScore_mapComplete e s hn hc)

/-! ## `fold_player` lemmas -/

/-- Proof-layer abbreviation: the state of `fold_player` after the
swap-to-last, the pop and the map delete, before rebalancing. -/
def removalState (e : PokerGameEngine) (pid index : Nat) : PokerGameEngine :=
  ⟨(_swap e index (e.heap.length - 1)).heap.dropLast,
   fun k => if k = pid then none else (_swap e index (e.heap.length - 1)).position_map k⟩

theorem fold_none (e : PokerGameEngine) {pid : Nat}
    (h : e.position_map pid = none) : fold_player e pid = e := by
  unfold fold_player
  rw [h]

theorem fold_player_some (e : PokerGameEngine) {pid index : Nat}
    (h : e.position_map pid = some index) :
    fold_player e pid =
      if index < (removalState e pid index).heap.length
      then _sift_down (_sift_up (removalState e pid index) index) index
      else removalState e pid index := by
  simp only [fold_player, removalState]
  rw [h]

theorem removalState_length (e : PokerGameEngine) (pid index : Nat) :
    (removalState e pid index).heap.length = e.heap.length - 1 := by
  show (_swap e index (e.heap.length - 1)).heap.dropLast.length = _
  rw [List.length_dropLast, swap_length]

theorem removalState_elemAt (e : PokerGameEngine) (pid : Nat) {index j : Nat}
    (hj : j < e.heap.length - 1) :
    elemAt (removalState e pid index) j = elemAt (_swap e index (e.heap.length - 1)) j := by
  show (_swap e index (e.heap.length - 1)).heap.dropLast.getD j dflt = _
  rw [getD_dropLast _ dflt (by rw [swap_length]; exact hj)]
  rfl

theorem removalState_hscore (e : PokerGameEngine) (pid : Nat) {index j : Nat}
    (hn : index < e.heap.length) (hj : j < e.heap.length - 1) :
    hscore (removalState e pid index) j =
      if j = index then hscore e (e.heap.length - 1) else hscore e j := by
  have hlast : e.heap.length - 1 < e.heap.length := by omega
  unfold hscore
  rw [removalState_elemAt e pid hj, swap_elemAt e hn hlast j,
    if_neg (show ¬(j = e.heap.length - 1) by omega)]
  split_ifs <;> rfl

theorem removalState_mapSound (e : PokerGameEngine) {pid index : Nat}
    (hs : mapSound e) (h : e.position_map pid = some index) :
    mapSound (removalState e pid index) := by
  obtain ⟨hn, hpid⟩ := hs pid index h
  have hlast : e.heap.length - 1 < e.heap.length := by omega
  have hs1 : mapSound (_swap e index (e.heap.length - 1)) := swap_mapSound e hs hn hlast
  intro k m hm
  have hk : ¬(k = pid) := by
    intro hh
    rw [show (removalState e pid index).position_map k =
        (if k = pid then none else (_swap e index (e.heap.length - 1)).position_map k)
      from rfl, if_pos hh] at hm
    cases hm
  have hm' : (_swap e index (e.heap.length - 1)).position_map k = some m := by
    rw [show (removalState e pid index).position_map k =
        (if k = pid then none else (_swap e index (e.heap.length - 1)).position_map k)
      from rfl, if_neg hk] at hm
    exact hm
  obtain ⟨hmn, hpid1⟩ := hs1 k m hm'
  rw [swap_length] at hmn
  have hmlast : m ≠ e.heap.length - 1 := by
    intro hh
    apply hk
    rw [← hpid1, hh]
    unfold pidAt
    rw [swap_elemAt e hn hlast, if_pos rfl]
    exact hpid.symm ▸ rfl
  rw [removalState_length]
  refine ⟨by omega, ?_⟩
  unfold pidAt
  rw [removalState_elemAt e pid (by omega)]
  exact hpid1

theorem removalState_mapComplete (e : PokerGameEngine) {pid index : Nat}
    (hs : mapSound e) (hc : mapComplete e) (h : e.position_map pid = some index) :
    mapComplete (removalState e pid index) := by
  obtain ⟨hn, hpid⟩ := hs pid index h
  have hlast : e.heap.length - 1 < e.heap.length := by omega
  have hc1 : mapComplete (_swap e index (e.heap.length - 1)) := swap_mapComplete e hc hn hlast
  intro m hm
  rw [removalState_length] at hm
  have helem : elemAt (removalState e pid index) m = elemAt (_swap e index (e.heap.length - 1)) m :=
    removalState_elemAt e pid hm
  have hco := hc1 m (by rw [swap_length]; omega)
  have hlastpid : pidAt (_swap e index (e.heap.length - 1)) (e.heap.length - 1) = pid := by
    unfold pidAt
    rw [swap_elemAt e hn hlast, if_pos rfl]
    exact hpid
  have hne : pidAt (_swap e index (e.heap.length - 1)) m ≠ pid := by
    intro hh
    have hco' := hc1 (e.heap.length - 1) (by rw [swap_length]; omega)
    rw [hlastpid] at hco'
    rw [hh] at hco
    rw [hco'] at hco
    have : e.heap.length - 1 = m := by cases hco; rfl
    omega
  show (if pidAt (removalState e pid index) m = pid then none
    else (_swap e index (e.heap.length - 1)).position_map (pidAt (removalState e pid index) m)) = some m
  have hpeq : pidAt (removalState e pid index) m = pidAt (_swap e index (e.heap.length - 1)) m := by
    unfold pidAt
    rw [helem]
  rw [hpeq, if_neg hne]
  exact hco

theorem removal_edge (e : PokerGameEngine) (pid : Nat) {index : Nat} (hh : heapInv e)
    (hn : index < e.heap.length) :
    ∀ j, 0 < j → j < e.heap.length - 1 → j ≠ index → _parent j ≠ index →
      hscore (removalState e pid index) (_parent j) ≥ hscore (removalState e pid index) j := by
  intro j hj0 hjn hji hpj
  have hplt : _parent j < e.heap.length - 1 := by
    have := parent_lt hj0
    omega
  rw [removalState_hscore e pid hn hjn, removalState_hscore e pid hn hplt,
    if_neg hji, if_neg hpj]
  exact hh j hj0 (by omega)

theorem removal_Bpart (e : PokerGameEngine) (pid : Nat) {index : Nat} (hh : heapInv e)
    (hn : index < e.heap.length) :
    0 < index → ∀ c, c < (removalState e pid index).heap.length → _parent c = index →
      hscore (removalState e pid index) (_parent index) ≥
        hscore (removalState e pid index) c := by
  intro h0 c hcn hpc
  rw [removalState_length] at hcn
  have hkid : hscore e c ≤ hscore e index := by
    have hc0 : 0 < c := by
      rcases Nat.eq_zero_or_pos c with hz | hz
      · exfalso
        rw [hz] at hpc
        have : _parent 0 = 0 := rfl
        omega
      · exact hz
    have := hh c hc0 (by omega)
    rw [hpc] at this
    exact this
  have hpne : _parent index ≠ index := by
    have := parent_lt h0
    omega
  have hcne : c ≠ index := by
    intro hh'
    rw [hh'] at hpc
    have := parent_lt h0
    omega
  have hplt : _parent index < e.heap.length - 1 := by
    have := parent_lt h0
    omega
  rw [removalState_hscore e pid hn hcn, removalState_hscore e pid hn hplt,
    if_neg hpne, if_neg hcne]
  exact le_trans hkid (hh index h0 hn)

theorem removal_siftUpInv (e : PokerGameEngine) (pid : Nat) {index : Nat} (hh : heapInv e)
    (hn : index < e.heap.length) (hidx : index < e.heap.length - 1)
    (hcond : 0 < index ∧ hscore (removalState e pid index) index >
      hscore (removalState e pid index) (_parent index)) :
    siftUpInv (removalState e pid index) index := by
  constructor
  · intro j hj0 hjn hne
    rw [removalState_length] at hjn
    by_cases hpj : _parent j = index
    · have hplt : _parent index < e.heap.length - 1 := by
        have := parent_lt hcond.1
        omega
      have hgt : hscore e (e.heap.length - 1) > hscore e (_parent index) := by
        have h1 := hcond.2
        rw [removalState_hscore e pid hn hidx, if_pos rfl,
          removalState_hscore e pid hn hplt,
          if_neg (by have := parent_lt hcond.1; omega)] at h1
        exact h1
      have hkid : hscore e j ≤ hscore e index := by
        have := hh j hj0 (by omega)
        rw [hpj] at this
        exact this
      rw [removalState_hscore e pid hn hjn,
        removalState_hscore e pid hn (by have := parent_lt hj0; omega),
        if_neg hne, if_pos hpj]
      exact le_trans (le_trans hkid (hh index hcond.1 hn)) hgt.le
    · exact removal_edge e pid hh hn j hj0 hjn hne hpj
  · exact removal_Bpart e pid hh hn

theorem removal_siftDownInv (e : PokerGameEngine) (pid : Nat) {index : Nat} (hh : heapInv e)
    (hn : index < e.heap.length)
    (hcond : ¬(0 < index ∧ hscore (removalState e pid index) index >
      hscore (removalState e pid index) (_parent index))) :
    siftDownInv (removalState e pid index) index := by
  constructor
  · intro j hj0 hjn hne
    rw [removalState_length] at hjn
    by_cases hji : j = index
    · rw [hji]
      exact not_lt.mp (fun hgt => hcond ⟨hji ▸ hj0, hgt⟩)
    · exact removal_edge e pid hh hn j hj0 hjn hji hne
  · exact removal_Bpart e pid hh hn

theorem removal_heapInv (e : PokerGameEngine) (pid : Nat) {index : Nat} (hh : heapInv e)
    (hn : index < e.heap.length) (hidx : ¬(index < e.heap.length - 1)) :
    heapInv (removalState e pid index) := by
  intro j hj0 hjn
  rw [removalState_length] at hjn
  have hji : j ≠ index := by omega
  have hpj : _parent j ≠ index := by
    have := parent_le j
    omega
  exact removal_edge e pid hh hn j hj0 hjn hji hpj

theorem fold_WF (e : PokerGameEngine) (pid : Nat) (h : WF e) : WF (fold_player e pid) := by
  obtain ⟨hh, hs⟩ := h
  cases hm : e.position_map pid with
  | none => rw [fold_none e hm]; exact ⟨hh, hs⟩
  | some index =>
    obtain ⟨hn, hpid⟩ := hs pid index hm
    rw [fold_player_some e hm]
    have hRlen := removalState_length e pid index
    have hRs := removalState_mapSound e hs hm
    by_cases hidx : index < (removalState e pid index).heap.length
    · rw [if_pos hidx]
      have hidx2 : index < e.heap.length - 1 := by rw [hRlen] at hidx; exact hidx
      by_cases hcond : 0 < index ∧ hscore (removalState e pid index) index >
          hscore (removalState e pid index) (_parent index)
      · -- the survivor's sift-up direction fires; sift-down is then the identity
        have hHup : heapInv (_sift_up (removalState e pid index) index) :=
          sift_up_heapInv _ hidx (removal_siftUpInv e pid hh hn hidx2 hcond)
        constructor
        · rw [sift_down_id_of_heapInv _ _ hHup]
          exact hHup
        · exact sift_down_mapSound _ _ (sift_up_mapSound _ hidx hRs)
      · -- the survivor does not move up; sift-down restores the invariant
        rw [sift_up_id _ hcond]
        exact ⟨sift_down_heapInv _ _ (removal_siftDownInv e pid hh hn hcond),
          sift_down_mapSound _ _ hRs⟩
    · rw [if_neg hidx]
      exact ⟨removal_heapInv e pid hh hn (by rw [hRlen] at hidx; omega), hRs⟩

theorem fold_mapComplete (e : PokerGameEngine) (pid : Nat)
    (hs : mapSound e) (hc : mapComplete e) : mapComplete (fold_player e pid) := by
  cases hm : e.position_map pid with
  | none => rw [fold_none e hm]; exact hc
  | some index =>
    rw [fold_player_some e hm]
    have hRc := removalState_mapComplete e hs hc hm
    split
    · next hidx =>
      exact sift_down_mapComplete _ _ (sift_up_mapComplete _ hidx hRc)
    · exact hRc

theorem fold_perm (e : PokerGameEngine) {pid index : Nat} (hs : mapSound e)
    (h : e.position_map pid = some index) :
    (elemAt e index :: (fold_player e pid).heap).Perm e.heap := by
  obtain ⟨hn, hpid⟩ := hs pid index h
  have hlast : e.heap.length - 1 < e.heap.length := by omega
  rw [fold_player_some e h]
  have hne : (_swap e index (e.heap.length - 1)).heap ≠ [] := by
    intro hemp
    have hl := swap_length e index (e.heap.length - 1)
    rw [hemp] at hl
    simp at hl
    omega
  have hsplit := dropLast_append_getD (_swap e index (e.heap.length - 1)).heap dflt hne
  have hget : (_swap e index (e.heap.length - 1)).heap.getD
      ((_swap e index (e.heap.length - 1)).heap.length - 1) dflt = elemAt e index := by
    rw [swap_length]
    have := swap_elemAt e hn hlast (e.heap.length - 1)
    rw [if_pos rfl] at this
    exact this
  rw [hget] at hsplit
  have h1 : (_swap e index (e.heap.length - 1)).heap =
      (removalState e pid index).heap ++ [elemAt e index] := hsplit.symm
  have hperm1 : (_swap e index (e.heap.length - 1)).heap.Perm e.heap :=
    swap_perm e hn hlast
  have hres : (if index < (removalState e pid index).heap.length
      then _sift_down (_sift_up (removalState e pid index) index) index
      else removalState e pid index).heap.Perm (removalState e pid index).heap := by
    split
    · next hidx => exact (sift_down_perm _ _).trans (sift_up_perm _ hidx)
    · exact List.Perm.refl _
  have step1 := hres.cons (elemAt e index)
  have step2 : (elemAt e index :: (removalState e pid index).heap).Perm
      ((removalState e pid index).heap ++ [elemAt e index]) :=
    (List.perm_append_singleton _ _).symm
  rw [← h1] at step2
  exact step1.trans (step2.trans hperm1)

/-! ## Reachable states -/

theorem init_WF : WF PokerGameEngine.init := by
  constructor
  · intro i h0 hn
    exact absurd hn (by simp [PokerGameEngine.init])
  · intro k j hm
    exact Option.noConfusion hm

theorem init_WFB : WFB PokerGameEngine.init := by
  refine ⟨init_WF.1, init_WF.2, ?_⟩
  intro i hi
  exact absurd hi (by simp [PokerGameEngine.init])

theorem applyOp_WF (e : PokerGameEngine) (op : Op) (h : WF e) : WF (applyOp e op) := by
  cases op with
  | add p => exact add_WF e p h
  | fold pid => exact fold_WF e pid h
  | update pid s => exact update_WF e pid s h
  | peek => exact h

theorem foldl_WF (ops : List Op) : ∀ e, WF e → WF (ops.foldl applyOp e) := by
  induction ops with
  | nil => intro e h; exact h
  | cons op rest ih => intro e h; exact ih _ (applyOp_WF e op h)

theorem runOps_WF (ops : List Op) : WF (runOps ops) :=
  foldl_WF ops _ init_WF

theorem foldl_WFB : ∀ (ops : List Op) (e : PokerGameEngine),
    WFB e → freshAdds e ops = true → WFB (ops.foldl applyOp e) := by
  intro ops
  induction ops with
  | nil => intro e h _; exact h
  | cons op rest ih =>
    intro e h hf
    obtain ⟨hh, hs, hc⟩ := h
    cases op with
    | add p =>
      rw [show freshAdds e (Op.add p :: rest) =
          ((e.position_map p.player_id).isNone && freshAdds (applyOp e (Op.add p)) rest)
        from rfl, Bool.and_eq_true] at hf
      have hfresh : e.position_map p.player_id = none :=
        Option.isNone_iff_eq_none.mp hf.1
      exact ih _ ⟨(add_WF e p ⟨hh, hs⟩).1, (add_WF e p ⟨hh, hs⟩).2,
        add_mapComplete e p hc hfresh⟩ hf.2
    | fold pid =>
      rw [show freshAdds e (Op.fold pid :: rest) =
          (true && freshAdds (applyOp e (Op.fold pid)) rest) from rfl,
        Bool.and_eq_true] at hf
      exact ih _ ⟨(fold_WF e pid ⟨hh, hs⟩).1, (fold_WF e pid ⟨hh, hs⟩).2,
        fold_mapComplete e pid hs hc⟩ hf.2
    | update pid s =>
      rw [show freshAdds e (Op.update pid s :: rest) =
          (true && freshAdds (applyOp e (Op.update pid s)) rest) from rfl,
        Bool.and_eq_true] at hf
      exact ih _ ⟨(update_WF e pid s ⟨hh, hs⟩).1, (update_WF e pid s ⟨hh, hs⟩).2,
        update_mapComplete e pid s hs hc⟩ hf.2
    | peek =>
      rw [show freshAdds e (Op.peek :: rest) =
          (true && freshAdds (applyOp e Op.peek) rest) from rfl,
        Bool.and_eq_true] at hf
      exact ih _ ⟨hh, hs, hc⟩ hf.2

theorem runOps_WFB (ops : List Op) (hf : freshAdds PokerGameEngine.init ops = true) :
    WFB (runOps ops) :=
  foldl_WFB ops _ init_WFB hf

/-! ## The root is the maximum -/

theorem root_max (e : PokerGameEngine) (hh : heapInv e) :
    ∀ i, i < e.heap.length → hscore e 0 ≥ hscore e i := by
  intro i
  induction i using Nat.strong_induction_on with
  | _ i ih =>
    intro hn
    rcases Nat.eq_zero_or_pos i with h0 | h0
    · rw [h0]
    · have hplt := parent_lt h0
      exact le_trans (hh i h0 hn) (ih (_parent i) hplt (by omega))

theorem get_winner_nil (e : PokerGameEngine) (h : e.heap = []) : get_winner e = none := by
  unfold get_winner
  rw [h]
  rfl

theorem get_winner_root (e : PokerGameEngine) (h : e.heap ≠ []) :
    get_winner e = some (elemAt e 0) := by
  unfold get_winner elemAt
  cases hx : e.heap with
  | nil => exact absurd hx h
  | cons w rest => rfl

/-! ## The map tracks the element moved by a sift-up -/

theorem siftUpGo_tracks : ∀ (fuel : Nat) (e : PokerGameEngine) (i : Nat) (q : Player),
    i < e.heap.length → elemAt e i = q → e.position_map q.player_id = some i →
    ∃ j, j ≤ i ∧ (siftUpGo fuel e i).position_map q.player_id = some j ∧
      elemAt (siftUpGo fuel e i) j = q := by
  intro fuel
  induction fuel with
  | zero => intro e i q hi he hp; exact ⟨i, le_refl i, hp, he⟩
  | succ f ih =>
    intro e i q hi he hp
    simp only [siftUpGo]
    split
    · next h =>
      have hplt : _parent i < e.heap.length := lt_trans (parent_lt h.1) hi
      have he' : elemAt (_swap e i (_parent i)) (_parent i) = q := by
        rw [swap_elemAt e hi hplt, if_pos rfl]
        exact he
      have hp' : (_swap e i (_parent i)).position_map q.player_id = some (_parent i) := by
        rw [swap_position_map, if_pos (by rw [← he])]
      obtain ⟨j, hj1, hj2, hj3⟩ := ih _ _ q (by rw [swap_length]; exact hplt) he' hp'
      exact ⟨j, le_trans hj1 (le_of_lt (parent_lt h.1)), hj2, hj3⟩
    · exact ⟨i, le_refl i, hp, he⟩

theorem sift_up_tracks (e : PokerGameEngine) {i : Nat} {q : Player}
    (hi : i < e.heap.length) (he : elemAt e i = q)
    (hp : e.position_map q.player_id = some i) :
    ∃ j, j ≤ i ∧ (_sift_up e i).position_map q.player_id = some j ∧
      elemAt (_sift_up e i) j = q :=
  siftUpGo_tracks (i + 1) e i q hi he hp

/-! ## The extraction round-trip -/

theorem extract_spec : ∀ (fuel : Nat) (e : PokerGameEngine),
    WFB e → (e.heap.map Player.hand_score).Nodup → e.heap.length ≤ fuel →
    (extractLoop fuel e).Perm e.heap ∧
      List.Pairwise (fun a b : Player => a.hand_score > b.hand_score) (extractLoop fuel e) := by
  intro fuel
  induction fuel with
  | zero =>
    intro e _ _ hlen
    have hnil : e.heap = [] := List.length_eq_zero.mp (by omega)
    exact ⟨hnil ▸ List.Perm.refl _, List.Pairwise.nil⟩
  | succ f ih =>
    intro e h hnd hlen
    cases hheap : e.heap with
    | nil =>
      have hw : get_winner e = none := get_winner_nil e hheap
      simp only [extractLoop, hw]
      exact ⟨hheap ▸ List.Perm.refl _, List.Pairwise.nil⟩
    | cons w rest =>
      have hw : get_winner e = some w := by
        rw [get_winner_root e (by rw [hheap]; simp)]
        unfold elemAt
        rw [hheap]
        rfl
      simp only [extractLoop, hw]
      rw [← hheap]
      obtain ⟨hh, hs, hc⟩ := h
      have hw0 : elemAt e 0 = w := by
        unfold elemAt
        rw [hheap]
        rfl
      have hn0 : 0 < e.heap.length := by rw [hheap]; simp
      have hmap0 : e.position_map w.player_id = some 0 := by
        have := hc 0 hn0
        unfold pidAt at this
        rw [hw0] at this
        exact this
      have hperm := fold_perm e hs hmap0
      rw [hw0] at hperm
      have hWF' : WFB (fold_player e w.player_id) :=
        ⟨(fold_WF e _ ⟨hh, hs⟩).1, (fold_WF e _ ⟨hh, hs⟩).2, fold_mapComplete e _ hs hc⟩
      have hlen' : (fold_player e w.player_id).heap.length ≤ f := by
        have hl := hperm.length_eq
        simp only [List.length_cons] at hl
        omega
      have hp2 := hperm.map Player.hand_score
      rw [List.map_cons] at hp2
      have hnd' := (hp2.nodup_iff).mpr hnd
      rw [List.nodup_cons] at hnd'
      obtain ⟨ihperm, ihpair⟩ := ih _ hWF' hnd'.2 hlen'
      constructor
      · exact (ihperm.cons w).trans hperm
      · rw [List.pairwise_cons]
        refine ⟨?_, ihpair⟩
        intro b hb
        have hbheap : b ∈ (fold_player e w.player_id).heap := (ihperm.mem_iff).mp hb
        have hbe : b ∈ e.heap := (hperm.mem_iff).mp (List.mem_cons_of_mem w hbheap)
        obtain ⟨k, hk, hbk⟩ := List.mem_iff_getElem.mp hbe
        have hroot := root_max e hh k hk
        have hbscore : hscore e k = b.hand_score := by
          unfold hscore elemAt
          rw [List.getD_eq_getElem e.heap dflt hk, hbk]
        have hws : hscore e 0 = w.hand_score := by
          unfold hscore
          rw [hw0]
        have hle : b.hand_score ≤ w.hand_score := by
          rw [← hbscore, ← hws]
          exact hroot
        have hne : b.hand_score ≠ w.hand_score := by
          intro heq
          apply hnd'.1
          rw [← heq]
          exact List.mem_map_of_mem Player.hand_score hbheap
        exact lt_of_le_of_ne hle hne

theorem foldl_add_perm : ∀ (ps : List Player) (e : PokerGameEngine),
    (ps.foldl add_player e).heap.Perm (ps ++ e.heap) := by
  intro ps
  induction ps with
  | nil => intro e; exact List.Perm.refl _
  | cons p rest ih =>
    intro e
    have h1 := ih (add_player e p)
    have h2 : (rest ++ (add_player e p).heap).Perm (rest ++ (p :: e.heap)) :=
      List.Perm.append_left rest (add_perm e p)
    have h3 : (rest ++ (p :: e.heap)).Perm ((p :: rest) ++ e.heap) := List.perm_middle
    exact h1.trans (h2.trans h3)

theorem foldl_add_WFB : ∀ (ps : List Player) (e : PokerGameEngine), WFB e →
    (ps.map Player.player_id).Nodup →
    (∀ p ∈ ps, p.player_id ∉ e.heap.map Player.player_id) →
    WFB (ps.foldl add_player e) := by
  intro ps
  induction ps with
  | nil => intro e h _ _; exact h
  | cons p rest ih =>
    intro e h hnd hdisj
    obtain ⟨hh, hs, hc⟩ := h
    have hfresh : e.position_map p.player_id = none := by
      cases hf : e.position_map p.player_id with
      | none => rfl
      | some j =>
        exfalso
        obtain ⟨hjn, hjpid⟩ := hs p.player_id j hf
        apply hdisj p (List.mem_cons_self p rest)
        have hjm : elemAt e j ∈ e.heap := by
          unfold elemAt
          rw [List.getD_eq_getElem e.heap dflt hjn]
          exact List.getElem_mem hjn
        have := List.mem_map_of_mem Player.player_id hjm
        rw [show (elemAt e j).player_id = pidAt e j from rfl, hjpid] at this
        exact this
    have hWFB' : WFB (add_player e p) :=
      ⟨(add_WF e p ⟨hh, hs⟩).1, (add_WF e p ⟨hh, hs⟩).2, add_mapComplete e p hc hfresh⟩
    rw [List.map_cons, List.nodup_cons] at hnd
    refine ih (add_player e p) hWFB' hnd.2 ?_
    intro q hq hqmem
    have hqid : q.player_id ∈ ((p :: e.heap).map Player.player_id) := by
      have hpm := (add_perm e p).map Player.player_id
      exact (hpm.mem_iff).mp hqmem
    rw [List.map_cons, List.mem_cons] at hqid
    rcases hqid with hqp | hqe
    · exact hnd.1 (hqp ▸ List.mem_map_of_mem Player.player_id hq)
    · exact hdisj q (List.mem_cons_of_mem p hq) hqe

/-! ## Key-set characterisation of the position map -/

theorem keys_iff (e : PokerGameEngine) (hs : mapSound e) (hc : mapComplete e) (k : Nat) :
    (e.position_map k).isSome ↔ k ∈ e.heap.map Player.player_id := by
  constructor
  · intro h
    obtain ⟨j, hj⟩ := Option.isSome_iff_exists.mp h
    obtain ⟨hjn, hjpid⟩ := hs k j hj
    have hjm : elemAt e j ∈ e.heap := by
      unfold elemAt
      rw [List.getD_eq_getElem e.heap dflt hjn]
      exact List.getElem_mem hjn
    have := List.mem_map_of_mem Player.player_id hjm
    rw [show (elemAt e j).player_id = pidAt e j from rfl, hjpid] at this
    exact this
  · intro h
    obtain ⟨q, hq, hqk⟩ := List.mem_map.mp h
    obtain ⟨j, hjn, hje⟩ := List.mem_iff_getElem.mp hq
    have := hc j hjn
    have hpid : pidAt e j = k := by
      unfold pidAt elemAt
      rw [List.getD_eq_getElem e.heap dflt hjn, hje]
      exact hqk
    rw [hpid] at this
    rw [this]
    rfl

theorem ids_nodup (e : PokerGameEngine) (hc : mapComplete e) :
    (e.heap.map Player.player_id).Nodup := by
  rw [show (e.heap.map Player.player_id).Nodup =
      List.Pairwise (fun a b => a ≠ b) (e.heap.map Player.player_id) from rfl,
    List.pairwise_map, List.pairwise_iff_get]
  intro i j hij hne
  have hlt : i.1 < j.1 := hij
  have hi := hc i.1 i.2
  have hj := hc j.1 j.2
  have hpi : pidAt e i.1 = (e.heap.get i).player_id := by
    unfold pidAt elemAt
    rw [List.getD_eq_getElem e.heap dflt i.2, List.get_eq_getElem]
  have hpj : pidAt e j.1 = (e.heap.get j).player_id := by
    unfold pidAt elemAt
    rw [List.getD_eq_getElem e.heap dflt j.2, List.get_eq_getElem]
  rw [hpi, hne, ← hpj, hj] at hi
  have : j.1 = i.1 := Option.some.inj hi
  omega

/-! ## Equivalence of the two `updatePriority` strategies -/

theorem update_alt_eq (e : PokerGameEngine) (hh : heapInv e) (hs : mapSound e)
    (pid : Nat) (s : Int) :
    update_hand_strength_alt e pid s = update_hand_strength e pid s := by
  cases hm : e.position_map pid with
  | none =>
    rw [update_none e s hm]
    unfold update_hand_strength_alt
    rw [hm]
  | some index =>
    obtain ⟨hn, _⟩ := hs pid index hm
    have halt : update_hand_strength_alt e pid s =
        _sift_down (_sift_up (setScoreState e index s) index) index := by
      simp only [update_hand_strength_alt, setScoreState]
      rw [hm]
    rw [update_some e s hm, halt]
    split
    · next hgt =>
      exact sift_down_id_of_heapInv _ _
        (sift_up_heapInv _ (by rw [setScore_length]; exact hn)
          (setScore_siftUpInv e hn hh hgt))
    · next hle =>
      have hid : _sift_up (setScoreState e index s) index = setScoreState e index s := by
        apply sift_up_id
        intro hcond
        obtain ⟨h0, hgt'⟩ := hcond
        rw [setScore_hscore e s hn index, if_pos rfl,
          setScore_hscore e s hn (_parent index),
          if_neg (show ¬(_parent index = index) by have := parent_lt h0; omega)] at hgt'
        exact absurd hgt' (not_lt.mpr (le_trans (not_lt.mp hle) (hh index h0 hn)))
      rw [hid]

/-! # The claims -/

/-- C1: for every sequence of public operations (`add_player`, `fold_player`,
`update_hand_strength`, `get_winner`) run from the empty structure, the heap
invariant `priority(parent i) ≥ priority(i)` holds at every non-root slot
when the last operation returns.  Quantifying over all operation lists
covers the state after *every* operation of every sequence (each prefix is
itself a sequence). -/
theorem C1_heap_invariant (ops : List Op) : heapInv (runOps ops) :=
  (runOps_WF ops).1

/-- Witness for C1 at a concrete operation sequence exercising all four
operations. -/
theorem C1_heap_invariant_witness :
    heapInv (runOps [Op.add ⟨1, "A", 100⟩, Op.add ⟨2, "B", 500⟩, Op.add ⟨3, "C", 300⟩,
      Op.peek, Op.update 1 850, Op.fold 2]) :=
  C1_heap_invariant [Op.add ⟨1, "A", 100⟩, Op.add ⟨2, "B", 500⟩, Op.add ⟨3, "C", 300⟩,
    Op.peek, Op.update 1 850, Op.fold 2]

/-- C2 counterexample: calling `add_player` twice with id 1 (the code never
checks for duplicates) yields a heap of two elements that both carry id 1,
while the position map sends 1 to slot 0 only — so
`position_map[heap[i].player_id] = i` fails at `i = 1` and the heap ids are
not duplicate-free.  The claimed bijection does not survive duplicate-id
inserts, which the code accepts. -/
theorem C2_bijection_counterexample :
    (¬ (∀ i, i < (runOps [Op.add ⟨1, "A", 100⟩, Op.add ⟨1, "B", 200⟩]).heap.length →
        (runOps [Op.add ⟨1, "A", 100⟩, Op.add ⟨1, "B", 200⟩]).position_map
          (pidAt (runOps [Op.add ⟨1, "A", 100⟩, Op.add ⟨1, "B", 200⟩]) i) = some i)) ∧
    ¬ ((runOps [Op.add ⟨1, "A", 100⟩, Op.add ⟨1, "B", 200⟩]).heap.map
        Player.player_id).Nodup := by
  constructor
  · intro h
    have h1 := h 1 (by decide)
    revert h1
    decide
  · decide

/-- C2 (amended): provided every `add_player` call in the sequence uses an id
absent at that moment (the spec's `DuplicateKey` precondition for `insert`),
after every public operation the position index is a bijection with the heap
slots: `position_map[heap[i].player_id] = i` for every valid `i`, the key
set of the map equals the set of ids stored in the heap, and the stored ids
are duplicate-free. -/
theorem C2_bijection (ops : List Op)
    (hf : freshAdds PokerGameEngine.init ops = true) :
    (∀ i, i < (runOps ops).heap.length →
        (runOps ops).position_map (pidAt (runOps ops) i) = some i) ∧
    (∀ k, ((runOps ops).position_map k).isSome ↔
        k ∈ (runOps ops).heap.map Player.player_id) ∧
    ((runOps ops).heap.map Player.player_id).Nodup := by
  obtain ⟨hh, hs, hc⟩ := runOps_WFB ops hf
  exact ⟨hc, fun k => keys_iff _ hs hc k, ids_nodup _ hc⟩

/-- Witness for C2: a concrete fresh-id sequence on which the bijection is
established by the theorem. -/
theorem C2_bijection_witness :
    freshAdds PokerGameEngine.init [Op.add ⟨1, "A", 100⟩, Op.add ⟨2, "B", 200⟩] = true ∧
    ((∀ i, i < (runOps [Op.add ⟨1, "A", 100⟩, Op.add ⟨2, "B", 200⟩]).heap.length →
        (runOps [Op.add ⟨1, "A", 100⟩, Op.add ⟨2, "B", 200⟩]).position_map
          (pidAt (runOps [Op.add ⟨1, "A", 100⟩, Op.add ⟨2, "B", 200⟩]) i) = some i) ∧
      (∀ k, ((runOps [Op.add ⟨1, "A", 100⟩, Op.add ⟨2, "B", 200⟩]).position_map k).isSome ↔
          k ∈ (runOps [Op.add ⟨1, "A", 100⟩, Op.add ⟨2, "B", 200⟩]).heap.map
            Player.player_id) ∧
      ((runOps [Op.add ⟨1, "A", 100⟩, Op.add ⟨2, "B", 200⟩]).heap.map
          Player.player_id).Nodup) :=
  ⟨by decide, C2_bijection [Op.add ⟨1, "A", 100⟩, Op.add ⟨2, "B", 200⟩] (by decide)⟩

/-- C3 counterexample: `add_player` with an id already present (1) does not
fail with `DuplicateKey` — it structurally inserts (the heap grows to two
elements); and `fold_player` / `update_hand_strength` with an absent id (99)
return the structure unchanged, producing no error value at all: the errors
are silent no-ops, contradicting "returned to the caller as an explicit
result value, never as a silent no-op". -/
theorem C3_error_counterexample :
    (runOps [Op.add ⟨1, "A", 100⟩, Op.add ⟨1, "B", 200⟩]).heap.length = 2 ∧
    fold_player (runOps [Op.add ⟨1, "A", 100⟩]) 99 = runOps [Op.add ⟨1, "A", 100⟩] ∧
    update_hand_strength (runOps [Op.add ⟨1, "A", 100⟩]) 99 5 =
      runOps [Op.add ⟨1, "A", 100⟩] :=
  ⟨by decide, fold_none _ (by decide), update_none _ 5 (by decide)⟩

/-- C3 (amended): the code produces no error results at all: `add_player`
appends unconditionally (no duplicate check — the length always grows by
one), and `fold_player` / `update_hand_strength` called with an absent id
silently return the structure unchanged (a silent no-op, as the spec itself
flags about the original driver). -/
theorem C3_silent_errors (e : PokerGameEngine) (p : Player) (pid : Nat) (s : Int)
    (h : e.position_map pid = none) :
    (add_player e p).heap.length = e.heap.length + 1 ∧
    fold_player e pid = e ∧ update_hand_strength e pid s = e :=
  ⟨add_length e p, fold_none e h, update_none e s h⟩

/-- Witness for C3 (amended) at a concrete state and arguments. -/
theorem C3_silent_errors_witness :
    PokerGameEngine.init.position_map 99 = none ∧
    ((add_player PokerGameEngine.init ⟨1, "A", 5⟩).heap.length =
        PokerGameEngine.init.heap.length + 1 ∧
      fold_player PokerGameEngine.init 99 = PokerGameEngine.init ∧
      update_hand_strength PokerGameEngine.init 99 7 = PokerGameEngine.init) :=
  ⟨rfl, C3_silent_errors PokerGameEngine.init ⟨1, "A", 5⟩ 99 7 rfl⟩

/-- C4: `get_winner` mutates nothing (in the embedding it is a pure observer
`PokerGameEngine → Option Player`, faithfully translating a method that only
reads `self.heap[0]`); on an empty structure it returns `none`, and on a
non-empty structure reached by any operation sequence it returns the root
element, whose priority is ≥ every present element's priority. -/
theorem C4_get_winner (ops : List Op) :
    ((runOps ops).heap = [] → get_winner (runOps ops) = none) ∧
    ((runOps ops).heap ≠ [] →
      get_winner (runOps ops) = some (elemAt (runOps ops) 0) ∧
      ∀ i, i < (runOps ops).heap.length →
        hscore (runOps ops) 0 ≥ hscore (runOps ops) i) :=
  ⟨get_winner_nil _, fun hne =>
    ⟨get_winner_root _ hne, root_max _ (runOps_WF ops).1⟩⟩

/-- Witness for C4 on a concrete non-empty structure. -/
theorem C4_get_winner_witness :
    (runOps [Op.add ⟨1, "A", 5⟩]).heap ≠ [] ∧
    (get_winner (runOps [Op.add ⟨1, "A", 5⟩]) =
        some (elemAt (runOps [Op.add ⟨1, "A", 5⟩]) 0) ∧
      ∀ i, i < (runOps [Op.add ⟨1, "A", 5⟩]).heap.length →
        hscore (runOps [Op.add ⟨1, "A", 5⟩]) 0 ≥ hscore (runOps [Op.add ⟨1, "A", 5⟩]) i) :=
  ⟨by decide, (C4_get_winner [Op.add ⟨1, "A", 5⟩]).2 (by decide)⟩

/-- C5: `fold_player` and `update_hand_strength` called with an id absent
from the position map return the engine itself — heap array and position
index element-for-element (indeed definitionally) unchanged. -/
theorem C5_absent_unchanged (e : PokerGameEngine) (pid : Nat) (s : Int)
    (h : e.position_map pid = none) :
    fold_player e pid = e ∧ update_hand_strength e pid s = e :=
  ⟨fold_none e h, update_none e s h⟩

/-- Witness for C5 at a concrete reachable state and absent id. -/
theorem C5_absent_unchanged_witness :
    (runOps [Op.add ⟨1, "A", 5⟩]).position_map 99 = none ∧
    (fold_player (runOps [Op.add ⟨1, "A", 5⟩]) 99 = runOps [Op.add ⟨1, "A", 5⟩] ∧
      update_hand_strength (runOps [Op.add ⟨1, "A", 5⟩]) 99 7 =
        runOps [Op.add ⟨1, "A", 5⟩]) :=
  ⟨by decide, C5_absent_unchanged (runOps [Op.add ⟨1, "A", 5⟩]) 99 7 (by decide)⟩

/-- C6 counterexample: in the heap built by adding (1,10), (2,5), (3,7),
removing id 2 frees slot 1, which is not the former last slot 2; the
survivor (score 7, below its parent 10, with no children) is moved by
NEITHER direction: both the sift-up and the sift-down are no-op checks,
refuting "exactly one of the two directions actually moves the surviving
element". -/
theorem C6_exactly_one_counterexample :
    (runOps [Op.add ⟨1, "A", 10⟩, Op.add ⟨2, "B", 5⟩, Op.add ⟨3, "C", 7⟩]).position_map 2 =
      some 1 ∧
    1 < (removalState
        (runOps [Op.add ⟨1, "A", 10⟩, Op.add ⟨2, "B", 5⟩, Op.add ⟨3, "C", 7⟩]) 2 1).heap.length ∧
    (_sift_up (removalState
        (runOps [Op.add ⟨1, "A", 10⟩, Op.add ⟨2, "B", 5⟩, Op.add ⟨3, "C", 7⟩]) 2 1) 1).heap =
      (removalState
        (runOps [Op.add ⟨1, "A", 10⟩, Op.add ⟨2, "B", 5⟩, Op.add ⟨3, "C", 7⟩]) 2 1).heap ∧
    (_sift_down (removalState
        (runOps [Op.add ⟨1, "A", 10⟩, Op.add ⟨2, "B", 5⟩, Op.add ⟨3, "C", 7⟩]) 2 1) 1).heap =
      (removalState
        (runOps [Op.add ⟨1, "A", 10⟩, Op.add ⟨2, "B", 5⟩, Op.add ⟨3, "C", 7⟩]) 2 1).heap := by
  refine ⟨by decide, by decide, by decide, by decide⟩

/-- C6 (amended): on any reachable state, when the removed slot `index` is
not the former last slot, `fold_player` rebalances by attempting a sift-up
followed by a sift-down at that slot (first conjunct, the code's structure),
and AT MOST one of the two directions actually moves the survivor: if the
sift-up moved anything, the subsequent sift-down is the identity.  (Both may
be no-ops, as the counterexample shows.) -/
theorem C6_rebalance (ops : List Op) (pid index : Nat)
    (hm : (runOps ops).position_map pid = some index)
    (hidx : index < (removalState (runOps ops) pid index).heap.length) :
    fold_player (runOps ops) pid =
      _sift_down (_sift_up (removalState (runOps ops) pid index) index) index ∧
    ((_sift_up (removalState (runOps ops) pid index) index).heap ≠
        (removalState (runOps ops) pid index).heap →
      _sift_down (_sift_up (removalState (runOps ops) pid index) index) index =
        _sift_up (removalState (runOps ops) pid index) index) := by
  obtain ⟨hh, hs⟩ := runOps_WF ops
  obtain ⟨hn, _⟩ := hs pid index hm
  constructor
  · rw [fold_player_some _ hm, if_pos hidx]
  · intro hmoved
    have hcond : 0 < index ∧
        hscore (removalState (runOps ops) pid index) index >
          hscore (removalState (runOps ops) pid index) (_parent index) := by
      by_contra hc
      exact hmoved (by rw [sift_up_id _ hc])
    have hidx2 : index < (runOps ops).heap.length - 1 := by
      rw [removalState_length] at hidx
      exact hidx
    exact sift_down_id_of_heapInv _ _
      (sift_up_heapInv _ hidx (removal_siftUpInv (runOps ops) pid hh hn hidx2 hcond))

/-- Witness for C6 (amended): a concrete removal in which the freed slot is
interior; the theorem applies and here the sift-up does move the survivor. -/
theorem C6_rebalance_witness :
    (runOps [Op.add ⟨1, "A", 10⟩, Op.add ⟨2, "B", 9⟩, Op.add ⟨3, "C", 2⟩,
        Op.add ⟨4, "D", 8⟩]).position_map 3 = some 2 ∧
    2 < (removalState (runOps [Op.add ⟨1, "A", 10⟩, Op.add ⟨2, "B", 9⟩, Op.add ⟨3, "C", 2⟩,
        Op.add ⟨4, "D", 8⟩]) 3 2).heap.length ∧
    (fold_player (runOps [Op.add ⟨1, "A", 10⟩, Op.add ⟨2, "B", 9⟩, Op.add ⟨3, "C", 2⟩,
          Op.add ⟨4, "D", 8⟩]) 3 =
        _sift_down (_sift_up (removalState (runOps [Op.add ⟨1, "A", 10⟩, Op.add ⟨2, "B", 9⟩,
          Op.add ⟨3, "C", 2⟩, Op.add ⟨4, "D", 8⟩]) 3 2) 2) 2 ∧
      ((_sift_up (removalState (runOps [Op.add ⟨1, "A", 10⟩, Op.add ⟨2, "B", 9⟩,
            Op.add ⟨3, "C", 2⟩, Op.add ⟨4, "D", 8⟩]) 3 2) 2).heap ≠
          (removalState (runOps [Op.add ⟨1, "A", 10⟩, Op.add ⟨2, "B", 9⟩,
            Op.add ⟨3, "C", 2⟩, Op.add ⟨4, "D", 8⟩]) 3 2).heap →
        _sift_down (_sift_up (removalState (runOps [Op.add ⟨1, "A", 10⟩, Op.add ⟨2, "B", 9⟩,
            Op.add ⟨3, "C", 2⟩, Op.add ⟨4, "D", 8⟩]) 3 2) 2) 2 =
          _sift_up (removalState (runOps [Op.add ⟨1, "A", 10⟩, Op.add ⟨2, "B", 9⟩,
            Op.add ⟨3, "C", 2⟩, Op.add ⟨4, "D", 8⟩]) 3 2) 2)) :=
  ⟨by decide, by decide,
    C6_rebalance [Op.add ⟨1, "A", 10⟩, Op.add ⟨2, "B", 9⟩, Op.add ⟨3, "C", 2⟩,
      Op.add ⟨4, "D", 8⟩] 3 2 (by decide) (by decide)⟩

/-- C7 counterexample: on a state violating the heap invariant (scores
[0, 10], id 2 present at slot 1), updating id 2 to 5 gives different final
arrays under the two strategies: the directional code sifts down (no move,
array stays [0, 5]) while the unconditional strategy's sift-up swaps (array
becomes [5, 0]).  So the two implementations are NOT equivalent on every
structure state — only on heap-invariant-satisfying (reachable) ones. -/
theorem C7_equiv_counterexample :
    (⟨[⟨1, "A", 0⟩, ⟨2, "B", 10⟩],
        fun k => if k = 1 then some 0 else if k = 2 then some 1 else none⟩ :
      PokerGameEngine).position_map 2 = some 1 ∧
    (update_hand_strength_alt
        ⟨[⟨1, "A", 0⟩, ⟨2, "B", 10⟩],
          fun k => if k = 1 then some 0 else if k = 2 then some 1 else none⟩ 2 5).heap ≠
      (update_hand_strength
        ⟨[⟨1, "A", 0⟩, ⟨2, "B", 10⟩],
          fun k => if k = 1 then some 0 else if k = 2 then some 1 else none⟩ 2 5).heap := by
  refine ⟨by decide, by decide⟩

/-- C7 (amended): on every state reachable by an input sequence from the
empty structure (such states satisfy the heap invariant), the directional
strategy of `update_hand_strength` and the spec's alternative unconditional
sift-up-then-sift-down strategy produce identical engines — same final heap
array contents (and same position map) — for every id and new priority;
hence the two implementations are behaviorally equivalent on every input
sequence. -/
theorem C7_update_equiv (ops : List Op) (pid : Nat) (s : Int) :
    update_hand_strength_alt (runOps ops) pid s =
      update_hand_strength (runOps ops) pid s :=
  update_alt_eq (runOps ops) (runOps_WF ops).1 (runOps_WF ops).2 pid s

/-- Witness for C7 at a concrete sequence, id and new score. -/
theorem C7_update_equiv_witness :
    update_hand_strength_alt (runOps [Op.add ⟨1, "A", 100⟩, Op.add ⟨2, "B", 500⟩]) 1 850 =
      update_hand_strength (runOps [Op.add ⟨1, "A", 100⟩, Op.add ⟨2, "B", 500⟩]) 1 850 :=
  C7_update_equiv [Op.add ⟨1, "A", 100⟩, Op.add ⟨2, "B", 500⟩] 1 850

/-- C8 counterexample: three players with pairwise-distinct priorities but a
duplicated id (1): insertion accepts all three, yet the extraction loop
("read max via `get_winner`, remove it via `fold_player`") returns the same
element three times — neither a permutation of the inputs nor strictly
descending — because the position map can only track one of the two
occurrences of id 1, so `fold_player 1` removes the wrong element and then
becomes a no-op. -/
theorem C8_roundtrip_counterexample :
    (([⟨1, "A", 100⟩, ⟨2, "B", 50⟩, ⟨1, "C", 80⟩] : List Player).map
        Player.hand_score).Nodup ∧
    ¬ List.Pairwise (fun a b : Player => a.hand_score > b.hand_score)
        (extractLoop 3 (([⟨1, "A", 100⟩, ⟨2, "B", 50⟩, ⟨1, "C", 80⟩] :
          List Player).foldl add_player PokerGameEngine.init)) ∧
    ¬ (extractLoop 3 (([⟨1, "A", 100⟩, ⟨2, "B", 50⟩, ⟨1, "C", 80⟩] :
          List Player).foldl add_player PokerGameEngine.init)).Perm
        [⟨1, "A", 100⟩, ⟨2, "B", 50⟩, ⟨1, "C", 80⟩] := by
  refine ⟨by decide, by decide, by decide⟩

/-- C8 (amended): for every list of players with pairwise-distinct ids (the
precondition `insert` imposes on every element) and pairwise-distinct
priorities, inserting them all into the empty structure and then repeatedly
reading the current max via `get_winner` and calling `fold_player` on its id
yields exactly the n inserted elements, in strictly descending priority
order. -/
theorem C8_roundtrip (ps : List Player)
    (hids : (ps.map Player.player_id).Nodup)
    (hscores : (ps.map Player.hand_score).Nodup) :
    (extractLoop ps.length (ps.foldl add_player PokerGameEngine.init)).Perm ps ∧
    List.Pairwise (fun a b : Player => a.hand_score > b.hand_score)
      (extractLoop ps.length (ps.foldl add_player PokerGameEngine.init)) := by
  have hWFB : WFB (ps.foldl add_player PokerGameEngine.init) :=
    foldl_add_WFB ps _ init_WFB hids
      (by intro p _ hmem; simp [PokerGameEngine.init] at hmem)
  have hperm : (ps.foldl add_player PokerGameEngine.init).heap.Perm ps := by
    have h := foldl_add_perm ps PokerGameEngine.init
    simpa [PokerGameEngine.init] using h
  have hlen : (ps.foldl add_player PokerGameEngine.init).heap.length = ps.length :=
    hperm.length_eq
  have hnd : ((ps.foldl add_player PokerGameEngine.init).heap.map
      Player.hand_score).Nodup :=
    ((hperm.map Player.hand_score).nodup_iff).mpr hscores
  obtain ⟨h1, h2⟩ := extract_spec ps.length _ hWFB hnd (by omega)
  exact ⟨h1.trans hperm, h2⟩

/-- Witness for C8 at a concrete three-element input. -/
theorem C8_roundtrip_witness :
    (([⟨1, "A", 10⟩, ⟨2, "B", 30⟩, ⟨3, "C", 20⟩] : List Player).map
        Player.player_id).Nodup ∧
    (([⟨1, "A", 10⟩, ⟨2, "B", 30⟩, ⟨3, "C", 20⟩] : List Player).map
        Player.hand_score).Nodup ∧
    ((extractLoop 3 (([⟨1, "A", 10⟩, ⟨2, "B", 30⟩, ⟨3, "C", 20⟩] :
          List Player).foldl add_player PokerGameEngine.init)).Perm
        [⟨1, "A", 10⟩, ⟨2, "B", 30⟩, ⟨3, "C", 20⟩] ∧
      List.Pairwise (fun a b : Player => a.hand_score > b.hand_score)
        (extractLoop 3 (([⟨1, "A", 10⟩, ⟨2, "B", 30⟩, ⟨3, "C", 20⟩] :
          List Player).foldl add_player PokerGameEngine.init))) :=
  ⟨by decide, by decide,
    C8_roundtrip [⟨1, "A", 10⟩, ⟨2, "B", 30⟩, ⟨3, "C", 20⟩] (by decide) (by decide)⟩

/-- C9: every public operation terminates.  In the embedding the sift loops
carry explicit fuel, and this theorem shows the fuel bounds are never the
reason a loop stops: any fuel above the bound gives the same result as the
canonical amount (`_sift_up` / `_sift_down`), i.e. each loop always exits by
its own condition within the bound; and each `_sift_down` recursive step
strictly increases the index while staying inside the array bounds. -/
theorem C9_termination :
    (∀ (fuel : Nat) (e : PokerGameEngine) (i : Nat), i < fuel →
        siftUpGo fuel e i = _sift_up e i) ∧
    (∀ (fuel : Nat) (e : PokerGameEngine) (i : Nat), e.heap.length - i ≤ fuel →
        siftDownGo fuel e i = _sift_down e i) ∧
    (∀ (e : PokerGameEngine) (i : Nat), siftTarget e i ≠ i →
        i < siftTarget e i ∧ siftTarget e i < e.heap.length) := by
  refine ⟨?_, ?_, ?_⟩
  · intro fuel e i h
    exact siftUpGo_fuel fuel (i + 1) e i h (Nat.lt_succ_self i)
  · intro fuel e i h
    exact siftDownGo_fuel fuel e.heap.length e i h (by omega)
  · intro e i h
    rcases siftTarget_cases e i with hL | hR
    · exact absurd hL.1 h
    · exact ⟨hR.2.1, hR.2.2.1⟩

/-- Witness for C9 at concrete fuels and states. -/
theorem C9_termination_witness :
    3 < 10 ∧
    siftUpGo 10 (runOps [Op.add ⟨1, "A", 5⟩]) 3 =
      _sift_up (runOps [Op.add ⟨1, "A", 5⟩]) 3 ∧
    (runOps [Op.add ⟨1, "A", 5⟩]).heap.length - 0 ≤ 5 ∧
    siftDownGo 5 (runOps [Op.add ⟨1, "A", 5⟩]) 0 =
      _sift_down (runOps [Op.add ⟨1, "A", 5⟩]) 0 :=
  ⟨by decide, C9_termination.1 10 (runOps [Op.add ⟨1, "A", 5⟩]) 3 (by decide),
    by decide, C9_termination.2.1 5 (runOps [Op.add ⟨1, "A", 5⟩]) 0 (by decide)⟩

/-- C10: calling `add_player` with an id already present appends the new
element anyway and sifts it up (the length always grows by one); the
position-map entry for that id is overwritten to point at the new element's
final slot (the slot it reaches after the sift-up holds exactly the new
element); the older element is still in the array (the new heap is, as a
multiset, the old heap plus the new element); and a single subsequent
`fold_player` of that id removes exactly the newer occurrence, restoring the
old heap as a multiset. -/
theorem C10_duplicate_add (e : PokerGameEngine) (p : Player) (i0 : Nat)
    (hs : mapSound e) (hpresent : e.position_map p.player_id = some i0) :
    (add_player e p).heap.length = e.heap.length + 1 ∧
    (∃ j, (add_player e p).position_map p.player_id = some j ∧
      elemAt (add_player e p) j = p) ∧
    (add_player e p).heap.Perm (p :: e.heap) ∧
    (fold_player (add_player e p) p.player_id).heap.Perm e.heap := by
  have htrack : ∃ j, j ≤ e.heap.length ∧
      (add_player e p).position_map p.player_id = some j ∧
      elemAt (add_player e p) j = p := by
    rw [add_player_eq]
    refine sift_up_tracks (preAddState e p) ?_ (preAdd_elemAt_last e p) ?_
    · rw [preAdd_length]
      omega
    · show (if p.player_id = p.player_id then some e.heap.length else _) = _
      rw [if_pos rfl]
  obtain ⟨j, _, hj2, hj3⟩ := htrack
  refine ⟨add_length e p, ⟨j, hj2, hj3⟩, add_perm e p, ?_⟩
  have hfoldperm := fold_perm (add_player e p) (add_mapSound e p hs) hj2
  rw [hj3] at hfoldperm
  exact (hfoldperm.trans (add_perm e p)).cons_inv

/-- Witness for C10: adding id 1 twice then folding id 1 once. -/
theorem C10_duplicate_add_witness :
    mapSound (runOps [Op.add ⟨1, "A", 100⟩]) ∧
    (runOps [Op.add ⟨1, "A", 100⟩]).position_map 1 = some 0 ∧
    ((add_player (runOps [Op.add ⟨1, "A", 100⟩]) ⟨1, "B", 200⟩).heap.length =
        (runOps [Op.add ⟨1, "A", 100⟩]).heap.length + 1 ∧
      (∃ j, (add_player (runOps [Op.add ⟨1, "A", 100⟩]) ⟨1, "B", 200⟩).position_map 1 =
          some j ∧
        elemAt (add_player (runOps [Op.add ⟨1, "A", 100⟩]) ⟨1, "B", 200⟩) j =
          ⟨1, "B", 200⟩) ∧
      (add_player (runOps [Op.add ⟨1, "A", 100⟩]) ⟨1, "B", 200⟩).heap.Perm
        (⟨1, "B", 200⟩ :: (runOps [Op.add ⟨1, "A", 100⟩]).heap) ∧
      (fold_player (add_player (runOps [Op.add ⟨1, "A", 100⟩]) ⟨1, "B", 200⟩) 1).heap.Perm
        (runOps [Op.add ⟨1, "A", 100⟩]).heap) :=
  ⟨(runOps_WF [Op.add ⟨1, "A", 100⟩]).2, by decide,
    C10_duplicate_add (runOps [Op.add ⟨1, "A", 100⟩]) ⟨1, "B", 200⟩ 0
      (runOps_WF [Op.add ⟨1, "A", 100⟩]).2 (by decide)⟩

end PokerSim
